import Mathlib

/-!
Verification of the play/task orchestration engine of `lib/ansible/playbook/__init__.py`
(the `PlayBook` class).  The engine is shallowly embedded: each method of the class becomes
a Lean function over an explicit `EngineState`; the external collaborators (inventory,
stats aggregator, executor, callbacks) are modelled per the specification where their code
is not part of the repository slice, and every observable action of the engine is recorded
in an event trace carried by the state.
-/

set_option autoImplicit false

namespace Ansible

/-- Host identities are strings. -/
abbrev Host := String

/-- A dynamically typed value, standing in for the Python values that flow through
result dictionaries and the fact cache. -/
inductive Val where
  | null : Val
  | bool : Bool → Val
  | nat : Nat → Val
  | str : String → Val
  | list : List Val → Val
  | dict : List (String × Val) → Val

/-- Python-style association "dictionary": insertion-ordered key/value list. -/
abbrev Dict := List (String × Val)

/-- Generic lookup in an insertion-ordered association list (`d[k]`). -/
def alGet {V : Type} (m : List (String × V)) (k : String) : Option V :=
  (m.find? (fun p => p.1 == k)).map (fun p => p.2)

/-- Generic assignment (`d[k] = v`): replace the value at an existing key in
place, else append the pair. -/
def alSet {V : Type} (m : List (String × V)) (k : String) (v : V) :
    List (String × V) :=
  if m.any (fun p => p.1 == k) then
    m.map (fun p => if p.1 == k then (p.1, v) else p)
  else m ++ [(k, v)]

/-- Python truthiness of a value. -/
def Val.truthy : Val → Bool
  | .null => false
  | .bool b => b
  | .nat n => n != 0
  | .str s => !(s.isEmpty)
  | .list l => !l.isEmpty
  | .dict d => !d.isEmpty

/-- `d[k]` lookup in an insertion-ordered dictionary. -/
def dictGet (d : Dict) (k : String) : Option Val := alGet d k

/-- `d.get(k, dflt)`. -/
def dictGetD (d : Dict) (k : String) (dflt : Val) : Val :=
  (dictGet d k).getD dflt

/-- `d[k] = v`: replace the value at an existing key in place, else append. -/
def dictSet (d : Dict) (k : String) (v : Val) : Dict := alSet d k v

/-- `d.update(e)`: set every key of `e` into `d`, in `e`'s order. -/
def dictUpdate (d e : Dict) : Dict :=
  e.foldl (fun acc p => dictSet acc p.1 p.2) d

/-- Host-keyed association list (the fact cache, contacted/dark result maps). -/
abbrev HDict := List (Host × Dict)

def hdictGet (m : HDict) (h : Host) : Option Dict := alGet m h

def hdictSet (m : HDict) (h : Host) (d : Dict) : HDict := alSet m h d

/-- Python `str.splitlines` restricted to newline separators. -/
def splitLines (s : String) : List String :=
  if s.isEmpty then []
  else
    let parts := s.splitOn "\n"
    if s.endsWith "\n" then parts.dropLast else parts

/-- Insert a string into a `≤`-sorted list of strings. -/
def insertSorted (x : String) : List String → List String
  | [] => [x]
  | y :: ys => if x ≤ y then x :: y :: ys else y :: insertSorted x ys

/-- Sort a list of strings (insertion sort), as Python `sorted` does for the tag sets. -/
def sortStrings (l : List String) : List String := l.foldr insertSorted []

/-- `",".join(sorted(l))`. -/
def joinSorted (l : List String) : String := String.intercalate "," (sortStrings l)

/-! ## Executor results -/

/-- Shape of one executor invocation's outcome, per §6:
`{contacted: {host: result}, dark: {host: reason}}`. -/
structure ExecResult where
  contacted : HDict
  dark : HDict

/-- The empty result (`{}` coerced to the contacted/dark shape by `.get`). -/
def emptyResult : ExecResult := ⟨[], []⟩

/-- Everything the executor collaborator can report for one dispatched task:
the (initial) results, and for asynchronous runs the results the poller's `wait`
returns together with the hosts still outstanding (`poller.hosts_to_poll`). -/
structure ExecOutcome where
  results : ExecResult
  waitResults : ExecResult
  hostsToPoll : List Host

def defaultOutcome : ExecOutcome := ⟨emptyResult, emptyResult, []⟩

/-! ## Stats aggregator -/

/-- Per-host counter map (Python dict host → count; membership = key present). -/
abbrev Counter := List (Host × Nat)

def counterHas (m : Counter) (h : Host) : Bool := m.any (fun p => p.1 == h)

def counterGet (m : Counter) (h : Host) : Nat :=
  match m.find? (fun p => p.1 == h) with
  | some p => p.2
  | _ => 0

def counterIncr (m : Counter) (h : Host) : Counter :=
  if m.any (fun p => p.1 == h) then
    m.map (fun p => if p.1 == h then (p.1, p.2 + 1) else p)
  else m ++ [(h, 1)]

/-- Modelled from the spec: the Stats aggregator (spec §2, §3) lives outside the
repository slice (`ansible/callbacks.py`); it keeps per-host counters for
ok/changed/failed(`failures`)/unreachable(`dark`)/skipped plus the set of processed
hosts, consulted via key-presence queries and only ever incremented. -/
structure Stats where
  processed : Counter
  ok : Counter
  failures : Counter
  dark : Counter
  changed : Counter
  skipped : Counter

def Stats.empty : Stats := ⟨[], [], [], [], [], []⟩

/-- Modelled from the spec: `stats.compute(results, ignore_errors)` (spec §3, §7) —
unreachable hosts are recorded in `dark`, failed results in `failures` unless
`ignore_errors`, skipped results in `skipped`, the rest in `ok` (plus `changed` when
the result indicates a change); every reported host is recorded as processed. -/
def Stats.compute (st : Stats) (r : ExecResult) (ignoreErrors : Bool) : Stats :=
  let st := r.dark.foldl
    (fun st p => { st with dark := counterIncr st.dark p.1,
                           processed := counterIncr st.processed p.1 }) st
  r.contacted.foldl
    (fun st p =>
      let st := { st with processed := counterIncr st.processed p.1 }
      if (dictGetD p.2 "skipped" (.bool false)).truthy then
        { st with skipped := counterIncr st.skipped p.1 }
      else if (dictGetD p.2 "failed" (.bool false)).truthy && !ignoreErrors then
        { st with failures := counterIncr st.failures p.1 }
      else
        let st := { st with ok := counterIncr st.ok p.1 }
        if (dictGetD p.2 "changed" (.bool false)).truthy then
          { st with changed := counterIncr st.changed p.1 }
        else st) st

/-- Per-host summary returned by `run()` (spec §6). -/
structure Summary where
  ok : Nat
  failures : Nat
  unreachable : Nat
  changed : Nat
  skipped : Nat
deriving DecidableEq

/-- Modelled from the spec: `stats.summarize(host)` — the per-host outcome counts. -/
def Stats.summarize (st : Stats) (h : Host) : Summary :=
  { ok := counterGet st.ok h
    failures := counterGet st.failures h
    unreachable := counterGet st.dark h
    changed := counterGet st.changed h
    skipped := counterGet st.skipped h }

/-- `run()`'s summary step: one entry per processed host. -/
def summaryOf (st : Stats) : List (Host × Summary) :=
  st.processed.map (fun p => (p.1, st.summarize p.1))

/-! ## Inventory (host availability tracker) -/

/-- Modelled from the spec: the inventory collaborator (§4.3, §6) is not part of the
repository slice.  It holds the host universe and two stacks of restriction frames:
`restrict_to` pushes an explicit frame replacing the active set, `also_restrict_to`
pushes a frame intersected with the active set; the corresponding lifts pop. -/
structure Inventory where
  hosts : List Host
  restriction : List (List Host)
  alsoRestriction : List (List Host)

/-- Modelled from the spec: the active host set under the current restriction frames —
the universe, replaced by the top `restrict_to` frame when present, intersected with
the top `also_restrict_to` frame when present (inventory order is preserved). -/
def Inventory.activeHosts (inv : Inventory) : List Host :=
  let base :=
    match inv.restriction.head? with
    | Option.none => inv.hosts
    | Option.some r => inv.hosts.filter (fun h => r.contains h)
  match inv.alsoRestriction.head? with
  | Option.none => base
  | Option.some a => base.filter (fun h => a.contains h)

/-- Modelled from the spec: `inventory.list_hosts(pattern)`, with a pattern denoted by
the list of hosts it names; `Option.none` is the no-argument form (all hosts). -/
def Inventory.listHosts (inv : Inventory) (pattern : Option (List Host)) : List Host :=
  match pattern with
  | Option.none => inv.activeHosts
  | Option.some p => inv.activeHosts.filter (fun h => p.contains h)

def Inventory.restrictTo (inv : Inventory) (hs : List Host) : Inventory :=
  { inv with restriction := hs :: inv.restriction }

def Inventory.liftRestriction (inv : Inventory) : Inventory :=
  { inv with restriction := inv.restriction.tail }

def Inventory.alsoRestrictTo (inv : Inventory) (hs : List Host) : Inventory :=
  { inv with alsoRestriction := hs :: inv.alsoRestriction }

def Inventory.liftAlsoRestriction (inv : Inventory) : Inventory :=
  { inv with alsoRestriction := inv.alsoRestriction.tail }

/-! ## Plays, tasks and handlers -/

/-- The fields of a task the engine consults (`Task` objects are read-only during
execution).  Module name/arguments and delegation parameters are opaque to the
engine's control flow and omitted. -/
structure EngineTask where
  name : String
  tags : List String
  ignoreErrors : Bool
  register : Option String
  notify : List String
  asyncSeconds : Nat
  asyncPollInterval : Int

/-- A handler is a task variant additionally carrying the `notified_by` host list,
mutated during a play's execution. -/
structure Handler where
  task : EngineTask
  notifiedBy : List Host

def Handler.name (h : Handler) : String := h.task.name

/-- A play: host pattern (denoted by the host list it names), tasks, handlers,
`serial`, and the `gather_facts` tri-state. -/
structure Play where
  name : String
  hosts : List Host
  tasks : List EngineTask
  handlers : List Handler
  serial : Int
  gatherFacts : Option Bool

/-! ## Engine state, events and results -/

/-- Observable actions of the engine: callback notifications, restriction stack
operations, and executor dispatches.  A task/handler executor dispatch records the
host set placed under restriction together with the inventory and stats the engine
read at that moment. -/
inductive Event where
  | onStart
  | onPlayStart (name : String)
  | onNoHostsMatched
  | onNoHostsRemaining
  | onSetup
  | setupExec (hosts : List Host)
  | onTaskStart (name : String) (isHandler : Bool)
  | execCall (restricted : List Host) (inv : Inventory) (stats : Stats)
  | restrictTo (hosts : List Host)
  | liftRestriction
  | alsoRestrictTo (hosts : List Host)
  | liftAlsoRestriction
  | onNotify (host : Host) (handler : String)
  | onFailed (host : Host) (reason : Dict)

/-- The whole mutable state the `PlayBook` methods touch, plus the immutable run
configuration (`extra_vars`, `only_tags`), the event trace, and the queue of
outcomes the executor collaborator will produce (one per dispatch, in order). -/
structure EngineState where
  inventory : Inventory
  stats : Stats
  setupCache : HDict
  handlers : List Handler
  extraVars : Dict
  onlyTags : List String
  trace : List Event
  oracle : List ExecOutcome

/-- Errors raised by the run. -/
inductive Err where
  | tagError (msg : String)
  | handlerNotFound (name : String)

/-- Result of an engine step: a value or a raised error, in both cases with the
state as of that moment (callbacks already fired are observable). -/
inductive ERes (α : Type) where
  | ok (a : α) (s : EngineState)
  | err (e : Err) (s : EngineState)

def ERes.state {α : Type} : ERes α → EngineState
  | .ok _ s => s
  | .err _ s => s

def emit (s : EngineState) (e : Event) : EngineState :=
  { s with trace := s.trace ++ [e] }

/-- `self.inventory.restrict_to(hosts)` with its trace event. -/
def restrictToS (hs : List Host) (s : EngineState) : EngineState :=
  { emit s (.restrictTo hs) with inventory := s.inventory.restrictTo hs }

def liftRestrictionS (s : EngineState) : EngineState :=
  { emit s .liftRestriction with inventory := s.inventory.liftRestriction }

def alsoRestrictToS (hs : List Host) (s : EngineState) : EngineState :=
  { emit s (.alsoRestrictTo hs) with inventory := s.inventory.alsoRestrictTo hs }

def liftAlsoRestrictionS (s : EngineState) : EngineState :=
  { emit s .liftAlsoRestriction with inventory := s.inventory.liftAlsoRestriction }

/-- Dequeue the next executor outcome. -/
def nextOutcome (s : EngineState) : ExecOutcome × EngineState :=
  (s.oracle.headD defaultOutcome, { s with oracle := s.oracle.tail })

/-! ## The engine (embedding of `PlayBook`'s methods) -/

/-- `PlayBook._list_available_hosts(*args)` (source lines 252-255): the hosts the
inventory currently lists (optionally under a pattern) that are in neither
`stats.failures` nor `stats.dark`. -/
def listAvailableHosts (inv : Inventory) (st : Stats) (pattern : Option (List Host)) :
    List Host :=
  (inv.listHosts pattern).filter
    (fun h => !(counterHas st.failures h) && !(counterHas st.dark h))

/-- The fixed reason dictionary synthesized for a timed-out async host
(source line 244). -/
def timedOutReason : Dict := [("failed", .nat 1), ("rc", .null), ("msg", .str "timed out")]

/-- `PlayBook._async_poll` after `poller.wait` returned (source lines 236-248): every
host still listed in `poller.hosts_to_poll` is marked failed with the timed-out
reason (failure callback fired, contacted entry overwritten). -/
def asyncPoll (outcome : ExecOutcome) (s : EngineState) : ExecResult × EngineState :=
  outcome.hostsToPoll.foldl
    (fun (acc : ExecResult × EngineState) host =>
      let results := acc.1
      let s := emit acc.2 (.onFailed host timedOutReason)
      ({ results with contacted := hdictSet results.contacted host timedOutReason }, s))
    (outcome.waitResults, s)

/-- `PlayBook._run_task_internal` (source lines 259-296): recompute the available
hosts, restrict the inventory to them, dispatch to the executor (asynchronously when
`async_seconds != 0`, polling when `async_poll_interval > 0`), lift the restriction,
and signal `None` when no host was contacted and none was dark. -/
def runTaskInternal (task : EngineTask) (s : EngineState) : Option ExecResult × EngineState :=
  let hosts := listAvailableHosts s.inventory s.stats Option.none
  let s := emit s (.execCall hosts s.inventory s.stats)
  let s := restrictToS hosts s
  let (outcome, s) := nextOutcome s
  let (results, s) :=
    if task.asyncSeconds = 0 then
      (outcome.results, s)
    else
      let s := { s with stats := s.stats.compute outcome.results false }
      if task.asyncPollInterval > 0 then asyncPoll outcome s
      else (outcome.results, s)
  let s := liftRestrictionS s
  if results.contacted.isEmpty && results.dark.isEmpty then (Option.none, s)
  else (Option.some results, s)

/-- The result dictionary stored under a register name: `stdout_lines` is added as
the line-split of `stdout` when `stdout` is present (source lines 327-328). -/
def registeredResult (result : Dict) : Dict :=
  match dictGet result "stdout" with
  | Option.some (.str out) =>
      dictSet result "stdout_lines" (.list ((splitLines out).map .str))
  | _ => result

/-- The per-host fact/register folding loop of `PlayBook._run_task`
(source lines 317-329): for each contacted host that is not skipped, merge its
returned facts into the cache entry, re-apply the extra vars on top, and finally
store the full result under the task's `register` name (adding `stdout_lines` when
`stdout` is present). -/
def foldOneContacted (task : EngineTask) (extraVars : Dict) (cache : HDict)
    (host : Host) (result : Dict) : HDict :=
  if (dictGetD result "skipped" (.bool false)).truthy then cache
  else
    let facts := match dictGet result "ansible_facts" with
      | Option.some (.dict f) => f
      | _ => []
    let entry := (hdictGet cache host).getD []
    let entry := dictUpdate entry facts
    let entry := dictUpdate entry extraVars
    match task.register with
    | Option.none => hdictSet cache host entry
    | Option.some reg =>
      hdictSet cache host (dictSet entry reg (.dict (registeredResult result)))

def foldContacted (task : EngineTask) (extraVars : Dict) (cache : HDict)
    (contacted : HDict) : HDict :=
  contacted.foldl (fun c p => foldOneContacted task extraVars c p.1 p.2) cache

/-- `PlayBook._flag_handler` (source lines 342-356): every handler whose (templated)
name equals the notified name records the host in `notified_by` (with an `on_notify`
callback); resolving to zero handlers raises. -/
def flagHandler (handlerName : String) (host : Host) (s : EngineState) : ERes Unit :=
  let found := s.handlers.any (fun x => x.name == handlerName)
  let s :=
    { s with
      trace := s.trace ++
        ((s.handlers.filter (fun x => x.name == handlerName)).map
          (fun x => Event.onNotify host x.name))
      handlers := s.handlers.map (fun x =>
        if x.name == handlerName then { x with notifiedBy := x.notifiedBy ++ [host] }
        else x) }
  if found then .ok () s else .err (.handlerNotFound handlerName) s

/-- The inner `for handler_name in task.notify` loop of `_run_task`. -/
def notifyAll (names : List String) (host : Host) (s : EngineState) : ERes Unit :=
  match names with
  | [] => .ok () s
  | n :: rest =>
    match flagHandler n host s with
    | .err e s => .err e s
    | .ok _ s => notifyAll rest host s

/-- The `for host, results in results.get('contacted',{})` notification loop of
`_run_task` (source lines 332-336): hosts whose result indicates a change notify
each named handler. -/
def notifyContacted (names : List String) (contacted : HDict) (s : EngineState) : ERes Unit :=
  match contacted with
  | [] => .ok () s
  | (host, res) :: rest =>
    if (dictGetD res "changed" (.bool false)).truthy then
      match notifyAll names host s with
      | .err e s => .err e s
      | .ok _ s => notifyContacted names rest s
    else notifyContacted names rest s

/-- `PlayBook._run_task` (source lines 300-338): start-callback, dispatch through
`_run_task_internal`, fold stats and facts, flag notified handlers; returns whether
hosts remained (`results is not None`). -/
def runTask (task : EngineTask) (isHandler : Bool) (s : EngineState) : ERes Bool :=
  let s := emit s (.onTaskStart task.name isHandler)
  let (resultsOpt, s) := runTaskInternal task s
  let hostsRemaining := resultsOpt.isSome
  let results := resultsOpt.getD emptyResult
  let contacted := results.contacted
  let s := { s with stats := s.stats.compute results task.ignoreErrors }
  let s := { s with setupCache := foldContacted task s.extraVars s.setupCache contacted }
  if task.notify.isEmpty then .ok hostsRemaining s
  else
    match notifyContacted task.notify contacted s with
    | .err e s => .err e s
    | .ok _ s => .ok hostsRemaining s

/-- Does the fact cache entry for `h` lack the `module_setup` sentinel?
(`h not in SETUP_CACHE or 'module_setup' not in SETUP_CACHE[h]`, source line 368.) -/
def needsSetup (cache : HDict) (h : Host) : Bool :=
  match hdictGet cache h with
  | Option.none => true
  | Option.some d => !(d.any (fun p => p.1 == "module_setup"))

/-- The executor-dispatching tail of `_do_setup_step` (source lines 372-394):
restrict to the (filtered) host list, run the bulk `setup` module, fold stats,
lift, and mark each contacted host with the sentinel plus its gathered facts. -/
def doSetupRun (hostList : List Host) (s : EngineState) : ExecResult × EngineState :=
  let s := emit s .onSetup
  let s := restrictToS hostList s
  let (outcome, s) := nextOutcome s
  let s := emit s (.setupExec hostList)
  let setupResults := outcome.results
  let s := { s with stats := s.stats.compute setupResults false }
  let s := liftRestrictionS s
  let s := { s with
    setupCache := setupResults.contacted.foldl
      (fun c p =>
        let entry := (hdictGet c p.1).getD []
        let entry := dictUpdate entry [("module_setup", .bool true)]
        let entry := dictUpdate entry
          (match dictGet p.2 "ansible_facts" with
           | Option.some (.dict f) => f
           | _ => [])
        hdictSet c p.1 entry) s.setupCache }
  (setupResults, s)

/-- `PlayBook._do_setup_step` (source lines 360-394): `gather_facts == False` skips
entirely; unset gathers only for hosts missing the sentinel (skipping the executor
call when that filter leaves nothing); `True` gathers unconditionally. -/
def doSetupStep (play : Play) (s : EngineState) : ExecResult × EngineState :=
  let hostList := listAvailableHosts s.inventory s.stats (Option.some play.hosts)
  match play.gatherFacts with
  | Option.some false => (emptyResult, s)
  | Option.some true => doSetupRun hostList s
  | Option.none =>
    let hostList := hostList.filter (fun h => needsSetup s.setupCache h)
    if hostList.isEmpty then (emptyResult, s)
    else doSetupRun hostList s

/-! ## Serial batching (source lines 415-425) -/

/-- The inner `for x in range(play.serial)` loop: pop up to `k` hosts off the END of
`hosts` (Python `list.pop()`), appending each to the batch being built. -/
def popBatch (k : Nat) (hosts : List Host) (acc : List Host) : List Host × List Host :=
  match k with
  | 0 => (acc, hosts)
  | k + 1 =>
    match hosts.getLast? with
    | Option.none => (acc, hosts)
    | Option.some last => popBatch k hosts.dropLast (acc ++ [last])

/-- The `while len(all_hosts) > 0` loop, with fuel bounding the iteration count. -/
def serializeLoop (k : Nat) (fuel : Nat) (hosts : List Host) : List (List Host) :=
  match fuel with
  | 0 => []
  | fuel + 1 =>
    if hosts.isEmpty then []
    else
      let (batch, rest) := popBatch k hosts []
      batch :: serializeLoop k fuel rest

/-- The batching step of `_run_play`: one batch of all hosts when `serial <= 0`,
otherwise repeatedly pop `serial` hosts off the end of the list. -/
def serializeBatch (serial : Int) (allHosts : List Host) : List (List Host) :=
  if serial ≤ 0 then [allHosts]
  else serializeLoop serial.toNat allHosts.length allHosts

/-! ## The batch loop of `_run_play` (source lines 427-464) -/

/-- The tag guard on a task (source lines 434-439): run iff some requested tag
equals some task tag. -/
def shouldRunTask (onlyTags : List String) (t : EngineTask) : Bool :=
  onlyTags.any (fun x => t.tags.any (fun y => x == y))

/-- The `for task in play.tasks()` loop (source lines 431-452): run each matching
task; a task reporting no hosts aborts the play, as does an empty available-host
set after any task (`on_no_hosts_remaining`).  Returns `false` when the play must
abort. -/
def taskLoop (play : Play) (tasks : List EngineTask) (s : EngineState) : ERes Bool :=
  match tasks with
  | [] => .ok true s
  | task :: rest =>
    match (if shouldRunTask s.onlyTags task then runTask task false s else .ok true s) with
    | .err e s => .err e s
    | .ok b s =>
      if !b then .ok false s
      else
        let hostList := listAvailableHosts s.inventory s.stats (Option.some play.hosts)
        if hostList.isEmpty then .ok false (emit s .onNoHostsRemaining)
        else taskLoop play rest s

/-- One iteration of the notify-actions loop (source lines 455-460) at handler
index `i`: a handler with an empty `notified_by` is left alone; otherwise restrict
to exactly `notified_by`, run it as a handler, lift the restriction, and clear
`notified_by`. -/
def runHandlerStep (i : Nat) (s : EngineState) : ERes Unit :=
  match s.handlers[i]? with
  | Option.none => .ok () s
  | Option.some handler =>
    if handler.notifiedBy.isEmpty then .ok () s
    else
      match runTask handler.task true (restrictToS handler.notifiedBy s) with
      | .err e s => .err e s
      | .ok _ s =>
        let s := liftRestrictionS s
        .ok () { s with
          handlers := s.handlers.set i { (s.handlers.getD i handler) with notifiedBy := [] } }

/-- The notify-actions loop over handler indices, in declaration order. -/
def runHandlersFrom (fuel : Nat) (i : Nat) (s : EngineState) : ERes Unit :=
  match fuel with
  | 0 => .ok () s
  | fuel + 1 =>
    if i < s.handlers.length then
      match runHandlerStep i s with
      | .err e s => .err e s
      | .ok _ s => runHandlersFrom fuel (i + 1) s
    else .ok () s

/-- The `for on_hosts in serialized_batch` loop (source lines 427-462): push the
batch's also-restriction, run the tasks, and — only when the tasks completed — run
the notified handlers and lift the also-restriction.  The early aborts return
without lifting it, exactly as the source does. -/
def runBatches (play : Play) (batches : List (List Host)) (s : EngineState) : ERes Bool :=
  match batches with
  | [] => .ok true s
  | onHosts :: rest =>
    let s := alsoRestrictToS onHosts s
    match taskLoop play play.tasks s with
    | .err e s => .err e s
    | .ok false s => .ok false s
    | .ok true s =>
      match runHandlersFrom s.handlers.length 0 s with
      | .err e s => .err e s
      | .ok _ s => runBatches play rest (liftAlsoRestrictionS s)

/-- `PlayBook._run_play` (source lines 398-464): no matching hosts is a successful
skip; otherwise gather facts, compute the batches from the available hosts, and run
them. -/
def runPlay (play : Play) (s : EngineState) : ERes Bool :=
  let s := emit s (.onPlayStart play.name)
  let s := { s with handlers := play.handlers }
  if (s.inventory.listHosts (Option.some play.hosts)).isEmpty then
    .ok true (emit s .onNoHostsMatched)
  else
    let (_, s) := doSetupStep play s
    let allHosts := listAvailableHosts s.inventory s.stats (Option.some play.hosts)
    let batches := serializeBatch play.serial allHosts
    runBatches play batches s

/-! ## `PlayBook.run` (source lines 193-232) -/

/-- Set union on deduplicated string lists (Python `set` union, keeping first-seen
order for determinism; only ever consumed through membership and sorting). -/
def setUnion (a b : List String) : List String :=
  a ++ (b.dedup.filter (fun t => !(a.contains t)))

/-- Modelled from the spec: `Play.compare_tags` (spec §4.2) lives outside the
repository slice (`playbook/play.py`); it returns the tags on the play's tasks that
are in the requested set (matched) and those that are not (unmatched). -/
def compareTags (play : Play) (only : List String) : List String × List String :=
  let taskTags := (play.tasks.map EngineTask.tags).flatten.dedup
  (taskTags.filter (fun t => only.contains t),
   taskTags.filter (fun t => !(only.contains t)))

/-- The tag-scanning loop of `run()`: union of matched tags across all plays. -/
def matchedTagsAll (playbook : List Play) (only : List String) : List String :=
  playbook.foldl (fun acc p => setUnion acc (compareTags p only).1) []

/-- The tag-scanning loop of `run()`: union of unmatched tags across all plays. -/
def unmatchedTagsAll (playbook : List Play) (only : List String) : List String :=
  playbook.foldl (fun acc p => setUnion acc (compareTags p only).2) []

/-- `unknown_tags = set(only_tags) - (matched_tags_all | unmatched_tags_all)`
followed by `unknown_tags.discard('all')` (source lines 214-215). -/
def unknownTagsOf (playbook : List Play) (only : List String) : List String :=
  (only.dedup.filter (fun t =>
    !((matchedTagsAll playbook only).contains t) &&
    !((unmatchedTagsAll playbook only).contains t))).filter (fun t => t != "all")

/-- The unknown-tag error message (source lines 218-222). -/
def tagErrMsg (unknown possible : List String) : String :=
  "tag(s) not found in playbook: " ++ joinSorted unknown ++
    ".  possible values: " ++ joinSorted possible

/-- The play-selection rule of the scan loop (source line 209): a play runs iff it
has matched tags or no tasks at all. -/
def selectedPlays (playbook : List Play) (only : List String) : List Play :=
  playbook.filter (fun p => !(compareTags p only).1.isEmpty || p.tasks.isEmpty)

/-- The `for play in plays: if not self._run_play(play): break` loop
(source lines 224-226). -/
def runPlays (plays : List Play) (s : EngineState) : ERes Unit :=
  match plays with
  | [] => .ok () s
  | p :: rest =>
    match runPlay p s with
    | .err e s => .err e s
    | .ok true s => runPlays rest s
    | .ok false s => .ok () s

/-- `PlayBook.run` (source lines 193-232): scan tags, raise on unknown requested
tags before running anything, run the selected plays stopping at the first failure,
then summarize per processed host from `stats`. -/
def runPB (playbook : List Play) (s : EngineState) : ERes (List (Host × Summary)) :=
  let s := emit s .onStart
  let unknown := unknownTagsOf playbook s.onlyTags
  if !unknown.isEmpty then
    let possible := (unmatchedTagsAll playbook s.onlyTags).filter (fun t => t != "all")
    .err (.tagError (tagErrMsg unknown possible)) s
  else
    match runPlays (selectedPlays playbook s.onlyTags) s with
    | .err e s => .err e s
    | .ok _ s => .ok (summaryOf s.stats) s

/-! ## Include-resolution variable merge (source lines 176-182) -/

/-- The merge applied to every play returned by a recursive playbook include: plays
are YAML dictionaries; a missing `vars` block becomes `{}`; a dict `vars` block is
updated in place with the inherited variables; a list `vars` block is extended with
`[dict(k=v) for k,v in incvars.iteritems()]` — note that Python's `dict(k=v)` builds
a mapping with the literal key `"k"`, which this embedding reproduces faithfully. -/
def mergeInheritedVars (incvars : Dict) (p : Dict) : Dict :=
  let p := if (dictGet p "vars").isNone then dictSet p "vars" (.dict []) else p
  match dictGet p "vars" with
  | Option.some (.dict d) => dictSet p "vars" (.dict (dictUpdate d incvars))
  | Option.some (.list l) =>
    dictSet p "vars" (.list (l ++ incvars.map (fun kv => Val.dict [("k", kv.2)])))
  | _ => p

/-- What the adjacent dict branch (and the spec's words) say the list branch should
append: a singleton mapping from the inherited key to its value.  Stated for
comparison with `mergeInheritedVars`. -/
def mergeInheritedVarsSpecList (incvars : Dict) (l : List Val) : List Val :=
  l ++ incvars.map (fun kv => Val.dict [(kv.1, kv.2)])

/-! ## Trace predicates -/

/-- An executor-dispatch event is availability-correct when the restricted host set
it recorded equals the available hosts recomputed from the inventory and stats the
engine read at that same moment, and hence contains no failed/unreachable host. -/
def execCallOk (e : Event) : Prop :=
  match e with
  | .execCall hs inv st =>
    hs = listAvailableHosts inv st Option.none ∧
      ∀ h ∈ hs, counterHas st.failures h = false ∧ counterHas st.dark h = false
  | _ => True

/-- Every executor dispatch recorded in the trace is availability-correct. -/
def TraceOk (tr : List Event) : Prop := ∀ e ∈ tr, execCallOk e

/-- One step of the restriction-stack simulation over the trace: track the depth of
`restrict_to` and `also_restrict_to` frames, failing on a pop of an empty stack. -/
def stackStep (d : Option (Nat × Nat)) (e : Event) : Option (Nat × Nat) :=
  match d, e with
  | Option.none, _ => Option.none
  | Option.some (r, a), .restrictTo _ => Option.some (r + 1, a)
  | Option.some (r, a), .liftRestriction =>
    match r with
    | 0 => Option.none
    | r + 1 => Option.some (r, a)
  | Option.some (r, a), .alsoRestrictTo _ => Option.some (r, a + 1)
  | Option.some (r, a), .liftAlsoRestriction =>
    match a with
    | 0 => Option.none
    | a + 1 => Option.some (r, a)
  | Option.some d, _ => Option.some d

def simFold (tr : List Event) (d : Option (Nat × Nat)) : Option (Nat × Nat) :=
  tr.foldl stackStep d

/-- A trace segment whose restriction events are matched LIFO pairs: from any
starting depth it returns to that depth without ever popping an empty stack. -/
def BalancedSeg (tr : List Event) : Prop :=
  ∀ r a, simFold tr (Option.some (r, a)) = Option.some (r, a)

/-- A trace segment that leaks exactly one `also_restrict_to` frame. -/
def LeakAlsoSeg (tr : List Event) : Prop :=
  ∀ r a, simFold tr (Option.some (r, a)) = Option.some (r, a + 1)

/-- Number of task/handler executor dispatches in a trace. -/
def countExec (tr : List Event) : Nat :=
  tr.countP (fun e => match e with | .execCall _ _ _ => true | _ => false)

/-- Number of handler-flagged task starts in a trace. -/
def countHandlerStarts (tr : List Event) : Nat :=
  tr.countP (fun e => match e with | .onTaskStart _ true => true | _ => false)

/-- The only error the play loop itself can raise is the undefined-handler error. -/
def errIsHandler (e : Err) : Prop := ∃ n, e = .handlerNotFound n

/-- Events that neither push nor pop a restriction frame. -/
def neutralEvent (e : Event) : Bool :=
  match e with
  | .restrictTo _ => false
  | .liftRestriction => false
  | .alsoRestrictTo _ => false
  | .liftAlsoRestriction => false
  | _ => true

/-- The state relation established by the handler-notification phase: only
`on_notify` callback events are appended, handler-list length is preserved, and
every other state component is untouched. -/
def NotifyExt (s s' : EngineState) : Prop :=
  (∃ tl, s'.trace = s.trace ++ tl ∧ ∀ e ∈ tl, ∃ h hn, e = Event.onNotify h hn) ∧
  s'.handlers.length = s.handlers.length ∧
  s'.inventory = s.inventory ∧
  s'.onlyTags = s.onlyTags ∧
  s'.extraVars = s.extraVars ∧
  s'.stats = s.stats ∧
  s'.setupCache = s.setupCache ∧
  s'.oracle = s.oracle

/-! ## Consecutive chunking (the spec's description of batching, §4.4 step 4) -/

/-- Partition a list into consecutive groups of size `k` (last group possibly
smaller), preserving order.  This follows the spec's words; it is compared against
the engine's `serializeBatch`. -/
def consecutiveChunks (k : Nat) : List Host → List (List Host)
  | [] => []
  | x :: xs => (x :: xs.take (k - 1)) :: consecutiveChunks k (xs.drop (k - 1))
termination_by l => l.length
decreasing_by simp [List.length_drop]; omega

/-! ## Concrete sample inputs (used by witnesses) -/

def sampleInv : Inventory := ⟨["a", "b"], [], []⟩

def sampleState (oracle : List ExecOutcome) : EngineState :=
  ⟨sampleInv, Stats.empty, [], [], [], ["all"], [], oracle⟩

def sampleAsyncTask : EngineTask := ⟨"ta", ["all"], false, Option.none, [], 5, 1⟩

def sampleAsyncOutcome : ExecOutcome :=
  ⟨⟨[("a", [("started", .nat 1)])], []⟩, emptyResult, ["a"]⟩

def sampleTask : EngineTask := ⟨"t1", ["all"], false, Option.none, [], 0, 0⟩

def sampleRegisterTask : EngineTask :=
  ⟨"t1", ["all"], false, Option.some "myvar", [], 0, 0⟩

def sampleFailOutcome : ExecOutcome :=
  ⟨⟨[("a", [("failed", .nat 1)])], []⟩, emptyResult, []⟩

def sampleOkOutcome : ExecOutcome :=
  ⟨⟨[("a", [("ok", .nat 1)])], []⟩, emptyResult, []⟩

def sampleChangedOutcome : ExecOutcome :=
  ⟨⟨[("a", [("changed", .bool true)])], []⟩, emptyResult, []⟩

def sampleFailPlay : Play :=
  ⟨"p1", ["a"], [sampleTask], [], 0, Option.some false⟩

def sampleHandler : Handler :=
  ⟨⟨"restart", ["all"], false, Option.none, [], 0, 0⟩, []⟩

def sampleTagPlay : Play :=
  ⟨"p", ["a"], [⟨"t", ["web"], false, Option.none, [], 0, 0⟩], [], 0, Option.some false⟩

def sampleTagState : EngineState :=
  ⟨sampleInv, Stats.empty, [], [], [], ["db", "all"], [], []⟩

def sampleStdoutResult : Dict := [("stdout", .str "x\ny")]

def sampleSkippedResult : Dict := [("skipped", .bool true)]

def sampleContacted : HDict := [("a", sampleStdoutResult), ("b", sampleSkippedResult)]

def sampleExtraVars : Dict := [("myvar", .str "fromextra")]

/-! ## Association-list lemmas -/

theorem find?_key_eq_none {V : Type} (m : List (String × V)) (k : String)
    (h : m.any (fun p => p.1 == k) = false) :
    m.find? (fun p => p.1 == k) = Option.none := by
  rw [List.find?_eq_none]
  intro p hp
  have hall := List.any_eq_false.mp h p hp
  simpa using hall

theorem alGet_alSet {V : Type} (m : List (String × V)) (k k' : String) (v : V) :
    alGet (alSet m k v) k' = if k' = k then Option.some v else alGet m k' := by
  have hkey : (fun (p : String × V) => p.1 == k') ∘
      (fun p => if p.1 == k then (p.1, v) else p) = fun p => p.1 == k' := by
    funext q
    by_cases hq : q.1 = k <;> simp [hq]
  unfold alSet
  by_cases hany : m.any (fun p => p.1 == k)
  · rw [if_pos hany]
    unfold alGet
    rw [List.find?_map, hkey]
    match hfind : m.find? (fun p => p.1 == k') with
    | Option.none =>
      by_cases hkk : k' = k
      · subst hkk
        exfalso
        obtain ⟨q, hqm, hq⟩ := List.any_eq_true.mp hany
        exact (List.find?_eq_none.mp hfind q hqm) hq
      · simp [alGet, hfind, hkk]
    | Option.some q =>
      have hq := List.find?_some hfind
      have hq1 : q.1 = k' := by simpa using hq
      by_cases hkk : k' = k
      · subst hkk
        simp [alGet, hfind, hq1]
      · have hqk : ¬ q.1 = k := by rw [hq1]; exact hkk
        simp [alGet, hfind, hqk, hkk]
  · rw [if_neg hany]
    unfold alGet
    rw [List.find?_append]
    by_cases hkk : k' = k
    · subst hkk
      rw [find?_key_eq_none m k' (Bool.eq_false_iff.mpr hany)]
      simp [List.find?]
    · have hne : (k == k') = false := by
        simp only [beq_eq_false_iff_ne]
        exact fun hcon => hkk hcon.symm
      simp [List.find?, hne, hkk]

theorem hdictGet_some_not_nil (m : HDict) (h : Host) (d : Dict)
    (hget : hdictGet m h = Option.some d) : m.isEmpty = false := by
  cases m with
  | nil => simp [hdictGet, alGet] at hget
  | cons p rest => simp

/-! ## Projection lemmas for the state helpers -/

@[simp] theorem emit_inventory (s : EngineState) (e : Event) :
    (emit s e).inventory = s.inventory := rfl
@[simp] theorem emit_stats (s : EngineState) (e : Event) : (emit s e).stats = s.stats := rfl
@[simp] theorem emit_setupCache (s : EngineState) (e : Event) :
    (emit s e).setupCache = s.setupCache := rfl
@[simp] theorem emit_handlers (s : EngineState) (e : Event) :
    (emit s e).handlers = s.handlers := rfl
@[simp] theorem emit_extraVars (s : EngineState) (e : Event) :
    (emit s e).extraVars = s.extraVars := rfl
@[simp] theorem emit_onlyTags (s : EngineState) (e : Event) :
    (emit s e).onlyTags = s.onlyTags := rfl
@[simp] theorem emit_oracle (s : EngineState) (e : Event) : (emit s e).oracle = s.oracle := rfl
@[simp] theorem emit_trace (s : EngineState) (e : Event) :
    (emit s e).trace = s.trace ++ [e] := rfl

@[simp] theorem restrictToS_inventory (hs : List Host) (s : EngineState) :
    (restrictToS hs s).inventory = s.inventory.restrictTo hs := rfl
@[simp] theorem restrictToS_stats (hs : List Host) (s : EngineState) :
    (restrictToS hs s).stats = s.stats := rfl
@[simp] theorem restrictToS_setupCache (hs : List Host) (s : EngineState) :
    (restrictToS hs s).setupCache = s.setupCache := rfl
@[simp] theorem restrictToS_handlers (hs : List Host) (s : EngineState) :
    (restrictToS hs s).handlers = s.handlers := rfl
@[simp] theorem restrictToS_extraVars (hs : List Host) (s : EngineState) :
    (restrictToS hs s).extraVars = s.extraVars := rfl
@[simp] theorem restrictToS_onlyTags (hs : List Host) (s : EngineState) :
    (restrictToS hs s).onlyTags = s.onlyTags := rfl
@[simp] theorem restrictToS_oracle (hs : List Host) (s : EngineState) :
    (restrictToS hs s).oracle = s.oracle := rfl
@[simp] theorem restrictToS_trace (hs : List Host) (s : EngineState) :
    (restrictToS hs s).trace = s.trace ++ [.restrictTo hs] := rfl

@[simp] theorem liftRestrictionS_inventory (s : EngineState) :
    (liftRestrictionS s).inventory = s.inventory.liftRestriction := rfl
@[simp] theorem liftRestrictionS_stats (s : EngineState) :
    (liftRestrictionS s).stats = s.stats := rfl
@[simp] theorem liftRestrictionS_setupCache (s : EngineState) :
    (liftRestrictionS s).setupCache = s.setupCache := rfl
@[simp] theorem liftRestrictionS_handlers (s : EngineState) :
    (liftRestrictionS s).handlers = s.handlers := rfl
@[simp] theorem liftRestrictionS_extraVars (s : EngineState) :
    (liftRestrictionS s).extraVars = s.extraVars := rfl
@[simp] theorem liftRestrictionS_onlyTags (s : EngineState) :
    (liftRestrictionS s).onlyTags = s.onlyTags := rfl
@[simp] theorem liftRestrictionS_oracle (s : EngineState) :
    (liftRestrictionS s).oracle = s.oracle := rfl
@[simp] theorem liftRestrictionS_trace (s : EngineState) :
    (liftRestrictionS s).trace = s.trace ++ [.liftRestriction] := rfl

@[simp] theorem alsoRestrictToS_inventory (hs : List Host) (s : EngineState) :
    (alsoRestrictToS hs s).inventory = s.inventory.alsoRestrictTo hs := rfl
@[simp] theorem alsoRestrictToS_stats (hs : List Host) (s : EngineState) :
    (alsoRestrictToS hs s).stats = s.stats := rfl
@[simp] theorem alsoRestrictToS_setupCache (hs : List Host) (s : EngineState) :
    (alsoRestrictToS hs s).setupCache = s.setupCache := rfl
@[simp] theorem alsoRestrictToS_handlers (hs : List Host) (s : EngineState) :
    (alsoRestrictToS hs s).handlers = s.handlers := rfl
@[simp] theorem alsoRestrictToS_extraVars (hs : List Host) (s : EngineState) :
    (alsoRestrictToS hs s).extraVars = s.extraVars := rfl
@[simp] theorem alsoRestrictToS_onlyTags (hs : List Host) (s : EngineState) :
    (alsoRestrictToS hs s).onlyTags = s.onlyTags := rfl
@[simp] theorem alsoRestrictToS_oracle (hs : List Host) (s : EngineState) :
    (alsoRestrictToS hs s).oracle = s.oracle := rfl
@[simp] theorem alsoRestrictToS_trace (hs : List Host) (s : EngineState) :
    (alsoRestrictToS hs s).trace = s.trace ++ [.alsoRestrictTo hs] := rfl

@[simp] theorem liftAlsoRestrictionS_inventory (s : EngineState) :
    (liftAlsoRestrictionS s).inventory = s.inventory.liftAlsoRestriction := rfl
@[simp] theorem liftAlsoRestrictionS_stats (s : EngineState) :
    (liftAlsoRestrictionS s).stats = s.stats := rfl
@[simp] theorem liftAlsoRestrictionS_setupCache (s : EngineState) :
    (liftAlsoRestrictionS s).setupCache = s.setupCache := rfl
@[simp] theorem liftAlsoRestrictionS_handlers (s : EngineState) :
    (liftAlsoRestrictionS s).handlers = s.handlers := rfl
@[simp] theorem liftAlsoRestrictionS_extraVars (s : EngineState) :
    (liftAlsoRestrictionS s).extraVars = s.extraVars := rfl
@[simp] theorem liftAlsoRestrictionS_onlyTags (s : EngineState) :
    (liftAlsoRestrictionS s).onlyTags = s.onlyTags := rfl
@[simp] theorem liftAlsoRestrictionS_oracle (s : EngineState) :
    (liftAlsoRestrictionS s).oracle = s.oracle := rfl
@[simp] theorem liftAlsoRestrictionS_trace (s : EngineState) :
    (liftAlsoRestrictionS s).trace = s.trace ++ [.liftAlsoRestriction] := rfl

/-! ## The async poller -/

/-- Unfolding one polled host. -/
theorem asyncPoll_cons (r w : ExecResult) (h : Host) (hs : List Host)
    (s : EngineState) :
    asyncPoll ⟨r, w, h :: hs⟩ s =
      asyncPoll ⟨r, { w with contacted := hdictSet w.contacted h timedOutReason }, hs⟩
        (emit s (.onFailed h timedOutReason)) := by
  simp [asyncPoll]

/-- What `_async_poll` guarantees: every outstanding host ends with the timed-out
contacted entry and a fired failure callback; other hosts' contacted entries and
the dark map are taken unchanged from the poller's wait results; the trace only
grows by failure callbacks. -/
theorem asyncPoll_spec :
    ∀ (toPoll : List Host) (r w : ExecResult) (s : EngineState) (res : ExecResult)
      (s' : EngineState),
      asyncPoll ⟨r, w, toPoll⟩ s = (res, s') →
      (∀ h ∈ toPoll,
        hdictGet res.contacted h = Option.some timedOutReason ∧
          Event.onFailed h timedOutReason ∈ s'.trace) ∧
      res.dark = w.dark ∧
      (∀ h, h ∉ toPoll → hdictGet res.contacted h = hdictGet w.contacted h) ∧
      (∃ tl, s'.trace = s.trace ++ tl ∧ ∀ e ∈ tl, ∃ h, e = .onFailed h timedOutReason) := by
  intro toPoll
  induction toPoll with
  | nil =>
    intro r w s res s' heq
    have hres : res = w ∧ s' = s := by
      have : asyncPoll ⟨r, w, []⟩ s = (w, s) := rfl
      rw [this] at heq
      exact ⟨(Prod.mk.injEq _ _ _ _ ▸ heq).1.symm, (Prod.mk.injEq _ _ _ _ ▸ heq).2.symm⟩
    obtain ⟨h1, h2⟩ := hres
    subst h1; subst h2
    refine ⟨by simp, rfl, fun h _ => rfl, ⟨[], by simp, by simp⟩⟩
  | cons h0 hs ih =>
    intro r w s res s' heq
    rw [asyncPoll_cons] at heq
    obtain ⟨hin, hdark, hout, tl, htr, htl⟩ := ih r _ _ res s' heq
    refine ⟨?_, hdark, ?_, ?_⟩
    · intro h hh
      rcases List.mem_cons.mp hh with hh0 | hhs
      · subst hh0
        by_cases hmem : h ∈ hs
        · exact hin h hmem
        · constructor
          · rw [hout h hmem]
            simp only [hdictGet, hdictSet]
            rw [alGet_alSet]
            simp
          · rw [htr]
            apply List.mem_append_left
            simp [emit]
      · exact hin h hhs
    · intro h hh
      have hne : h ≠ h0 := fun hcon => hh (hcon ▸ List.mem_cons_self h0 hs)
      have hns : h ∉ hs := fun hcon => hh (List.mem_cons_of_mem h0 hcon)
      rw [hout h hns]
      simp only [hdictGet, hdictSet]
      rw [alGet_alSet]
      simp [hne]
    · refine ⟨Event.onFailed h0 timedOutReason :: tl, ?_, ?_⟩
      · rw [htr]; simp [emit]
      · intro e he
        rcases List.mem_cons.mp he with he0 | hetl
        · exact ⟨h0, he0⟩
        · exact htl e hetl

/-- `asyncPoll_spec` restated for an arbitrary outcome value. -/
theorem asyncPoll_spec2 (out : ExecOutcome) (st : EngineState) :
    (∀ h ∈ out.hostsToPoll,
      hdictGet (asyncPoll out st).1.contacted h = Option.some timedOutReason ∧
        Event.onFailed h timedOutReason ∈ (asyncPoll out st).2.trace) ∧
    (asyncPoll out st).1.dark = out.waitResults.dark ∧
    (∀ h, h ∉ out.hostsToPoll →
        hdictGet (asyncPoll out st).1.contacted h = hdictGet out.waitResults.contacted h) ∧
    (∃ tl, (asyncPoll out st).2.trace = st.trace ++ tl ∧
        ∀ e ∈ tl, ∃ h, e = .onFailed h timedOutReason) :=
  asyncPoll_spec out.hostsToPoll out.results out.waitResults st _ _ Prod.mk.eta.symm

/-- The tail of `_run_task_internal`'s async path: any outstanding host forces a
`some` result carrying its timed-out entry, and the failure callback is in the
final trace. -/
theorem asyncFinish_spec (out : ExecOutcome) (st : EngineState) (h : Host)
    (hh : h ∈ out.hostsToPoll) :
    ∃ res s',
      (if ((asyncPoll out st).1.contacted.isEmpty && (asyncPoll out st).1.dark.isEmpty) = true
        then ((Option.none : Option ExecResult), liftRestrictionS (asyncPoll out st).2)
        else (Option.some (asyncPoll out st).1, liftRestrictionS (asyncPoll out st).2)) =
        (Option.some res, s') ∧
      hdictGet res.contacted h = Option.some timedOutReason ∧
      res.dark = out.waitResults.dark ∧
      Event.onFailed h timedOutReason ∈ s'.trace := by
  obtain ⟨hin, hdark, _, _⟩ := asyncPoll_spec2 out st
  obtain ⟨hget, hev⟩ := hin h hh
  have hne := hdictGet_some_not_nil _ _ _ hget
  refine ⟨(asyncPoll out st).1, liftRestrictionS (asyncPoll out st).2, ?_, hget, hdark, ?_⟩
  · rw [hne]
    simp
  · rw [liftRestrictionS_trace]
    exact List.mem_append_left _ hev

/-- **C9**: for a task with `async_seconds > 0` and `async_poll_interval > 0`,
after the poller's wait every host still listed as outstanding receives a contacted
result equal to `{failed: 1, rc: None, msg: 'timed out'}` merged into the usual
contacted/dark result shape (the dark map is the wait results' dark map), and the
failure callback is invoked for that host. -/
theorem c9_async_timeout (task : EngineTask) (s : EngineState)
    (ha : ¬ task.asyncSeconds = 0) (hp : 0 < task.asyncPollInterval) (h : Host)
    (hh : h ∈ (s.oracle.headD defaultOutcome).hostsToPoll) :
    ∃ res s', runTaskInternal task s = (Option.some res, s') ∧
      hdictGet res.contacted h = Option.some timedOutReason ∧
      res.dark = (s.oracle.headD defaultOutcome).waitResults.dark ∧
      Event.onFailed h timedOutReason ∈ s'.trace := by
  simp only [runTaskInternal, nextOutcome, if_neg ha, emit_oracle, restrictToS_oracle]
  rw [if_pos hp]
  exact asyncFinish_spec _ _ h hh

theorem c9_async_timeout_witness :
    (¬ sampleAsyncTask.asyncSeconds = 0) ∧ 0 < sampleAsyncTask.asyncPollInterval ∧
      "a" ∈ ((sampleState [sampleAsyncOutcome]).oracle.headD defaultOutcome).hostsToPoll ∧
      (∃ res s',
        runTaskInternal sampleAsyncTask (sampleState [sampleAsyncOutcome]) =
          (Option.some res, s') ∧
        hdictGet res.contacted "a" = Option.some timedOutReason ∧
        res.dark =
          ((sampleState [sampleAsyncOutcome]).oracle.headD defaultOutcome).waitResults.dark ∧
        Event.onFailed "a" timedOutReason ∈ s'.trace) :=
  ⟨by decide, by decide, by decide,
    c9_async_timeout sampleAsyncTask (sampleState [sampleAsyncOutcome])
      (by decide) (by decide) "a" (by decide)⟩

theorem consecutiveChunks_nil (k : Nat) : consecutiveChunks k [] = [] := by
  simp [consecutiveChunks]

theorem consecutiveChunks_cons (k : Nat) (x : Host) (xs : List Host) :
    consecutiveChunks k (x :: xs) =
      (x :: xs.take (k - 1)) :: consecutiveChunks k (xs.drop (k - 1)) := by
  simp [consecutiveChunks]

theorem consecutiveChunks_eq_nil_iff (k : Nat) (l : List Host) :
    consecutiveChunks k l = [] ↔ l = [] := by
  cases l with
  | nil => simp [consecutiveChunks_nil]
  | cons x xs => simp [consecutiveChunks_cons]

/-- `popBatch` pops the last `min k |hosts|` elements, reversed. -/
theorem popBatch_eq (k : Nat) :
    ∀ (hosts acc : List Host),
      popBatch k hosts acc =
        (acc ++ hosts.reverse.take k, (hosts.reverse.drop k).reverse) := by
  induction k with
  | zero => intro hosts acc; simp [popBatch]
  | succ k ih =>
    intro hosts acc
    match hhosts : hosts with
    | [] => simp [popBatch]
    | y :: ys =>
      have hne : y :: ys ≠ [] := by simp
      rw [popBatch]
      have hlast : (y :: ys).getLast? = Option.some ((y :: ys).getLast hne) := by
        rw [List.getLast?_eq_getLast (y :: ys) hne]
      rw [hlast]
      simp only []
      rw [ih]
      have hsplit : (y :: ys).reverse =
          (y :: ys).getLast hne :: (y :: ys).dropLast.reverse := by
        conv_lhs => rw [← List.dropLast_append_getLast hne]
        rw [List.reverse_append]
        simp
      rw [hsplit]
      simp

/-- With enough fuel and a positive group size, the engine's pop-from-the-end loop
produces exactly the consecutive chunks of the REVERSED host list. -/
theorem serializeLoop_eq_chunks (k : Nat) (hk : 1 ≤ k) :
    ∀ (n : Nat) (hosts : List Host), hosts.length ≤ n →
      serializeLoop k n hosts = consecutiveChunks k hosts.reverse := by
  intro n
  induction n with
  | zero =>
    intro hosts hlen
    have : hosts = [] := List.length_eq_zero.mp (Nat.le_zero.mp hlen)
    subst this
    simp [serializeLoop, consecutiveChunks_nil]
  | succ n ih =>
    intro hosts hlen
    match hhosts : hosts with
    | [] => simp [serializeLoop, consecutiveChunks_nil]
    | z :: zs =>
      rw [serializeLoop]
      simp only [List.isEmpty_cons, Bool.false_eq_true, if_false]
      rw [popBatch_eq]
      have hrev : (z :: zs).reverse ≠ [] := by simp
      match hr : (z :: zs).reverse with
      | [] => exact absurd hr hrev
      | y :: ys =>
        rw [consecutiveChunks_cons]
        have htake : (y :: ys).take k = y :: ys.take (k - 1) := by
          match k, hk with
          | k + 1, _ => simp
        have hdrop : (y :: ys).drop k = ys.drop (k - 1) := by
          match k, hk with
          | k + 1, _ => simp
        rw [htake, hdrop]
        simp only [List.nil_append]
        congr 1
        have hlen2 : ((ys.drop (k - 1)).reverse).length ≤ n := by
          have h1 : zs.length + 1 = ys.length + 1 := by
            have h2 := congrArg List.length hr
            simpa using h2
          have h3 : zs.length + 1 ≤ n + 1 := by simpa using hlen
          simp only [List.length_reverse, List.length_drop]
          omega
        rw [ih ((ys.drop (k - 1)).reverse) hlen2]
        rw [List.reverse_reverse]

/-- The engine's batching, for positive `serial`, chunks the reversed host list. -/
theorem serializeBatch_eq_chunks (serial : Int) (hser : 0 < serial) (hosts : List Host) :
    serializeBatch serial hosts = consecutiveChunks serial.toNat hosts.reverse := by
  have hneg : ¬ serial ≤ 0 := by omega
  rw [serializeBatch, if_neg hneg]
  exact serializeLoop_eq_chunks serial.toNat (by omega) hosts.length hosts (le_refl _)

/-- Flattening consecutive chunks restores the list. -/
theorem consecutiveChunks_flatten (k : Nat) :
    ∀ (n : Nat) (l : List Host), l.length ≤ n → (consecutiveChunks k l).flatten = l := by
  intro n
  induction n with
  | zero =>
    intro l hlen
    have : l = [] := List.length_eq_zero.mp (Nat.le_zero.mp hlen)
    subst this; simp [consecutiveChunks_nil]
  | succ n ih =>
    intro l hlen
    match l with
    | [] => simp [consecutiveChunks_nil]
    | x :: xs =>
      rw [consecutiveChunks_cons]
      simp only [List.flatten_cons]
      rw [ih (xs.drop (k - 1)) (by simp at hlen ⊢; omega)]
      simp [List.take_append_drop]

/-- Number of consecutive chunks: `⌈|l| / k⌉` for positive `k`. -/
theorem consecutiveChunks_length (k : Nat) (hk : 1 ≤ k) :
    ∀ (n : Nat) (l : List Host), l.length ≤ n →
      (consecutiveChunks k l).length = (l.length + k - 1) / k := by
  intro n
  induction n with
  | zero =>
    intro l hlen
    have : l = [] := List.length_eq_zero.mp (Nat.le_zero.mp hlen)
    subst this
    simp [consecutiveChunks_nil, Nat.div_eq_of_lt (by omega : k - 1 < k)]
  | succ n ih =>
    intro l hlen
    match l with
    | [] => simp [consecutiveChunks_nil, Nat.div_eq_of_lt (by omega : k - 1 < k)]
    | x :: xs =>
      rw [consecutiveChunks_cons]
      simp only [List.length_cons]
      rw [ih (xs.drop (k - 1)) (by simp at hlen ⊢; omega)]
      simp only [List.length_drop]
      have h0 : 0 < k := hk
      rcases le_or_lt k (xs.length + 1) with hge | hlt
      · have h1 : xs.length - (k - 1) + k - 1 = xs.length := by omega
        have h2 : xs.length + 1 + k - 1 = xs.length + k := by omega
        rw [h1, h2, Nat.add_div_right _ h0]
      · have h1 : xs.length - (k - 1) = 0 := by omega
        have h2 : xs.length + 1 + k - 1 = xs.length + k := by omega
        rw [h1, h2, Nat.add_div_right _ h0]
        simp only [Nat.zero_add]
        rw [Nat.div_eq_of_lt (by omega : k - 1 < k),
          Nat.div_eq_of_lt (by omega : xs.length < k)]

/-- All consecutive chunks except possibly the last have size exactly `k`, and none
exceeds `k`. -/
theorem consecutiveChunks_sizes (k : Nat) (hk : 1 ≤ k) :
    ∀ (n : Nat) (l : List Host), l.length ≤ n →
      (∀ b ∈ (consecutiveChunks k l).dropLast, b.length = k) ∧
      (∀ b ∈ consecutiveChunks k l, b.length ≤ k) := by
  intro n
  induction n with
  | zero =>
    intro l hlen
    have : l = [] := List.length_eq_zero.mp (Nat.le_zero.mp hlen)
    subst this
    simp [consecutiveChunks_nil]
  | succ n ih =>
    intro l hlen
    match l with
    | [] => simp [consecutiveChunks_nil]
    | x :: xs =>
      rw [consecutiveChunks_cons]
      have hrec := ih (xs.drop (k - 1)) (by simp at hlen ⊢; omega)
      constructor
      · intro b hb
        match hrest : consecutiveChunks k (xs.drop (k - 1)) with
        | [] => simp [hrest] at hb
        | c :: cs =>
          rw [hrest] at hb
          rw [List.dropLast_cons₂] at hb
          rcases List.mem_cons.mp hb with hbc | hbrest
          · subst hbc
            have hne : xs.drop (k - 1) ≠ [] := by
              intro hcon
              rw [hcon, consecutiveChunks_nil] at hrest
              exact List.cons_ne_nil c cs hrest.symm
            have hlendrop : xs.length - (k - 1) ≠ 0 := by
              intro hcon
              exact hne (List.eq_nil_of_length_eq_zero (by simp [hcon]))
            simp only [List.length_cons, List.length_take]
            omega
          · rw [hrest] at hrec
            exact hrec.1 b hbrest
      · intro b hb
        rcases List.mem_cons.mp hb with hbc | hbrest
        · subst hbc
          simp only [List.length_cons, List.length_take]
          omega
        · exact hrec.2 b hbrest

/-! ## Claim C4 — serial batching shape -/

/-- **C4**: for `serial = k > 0` and `N` available hosts the batching step produces
`⌈N/k⌉` batches, each of size exactly `k` except possibly the last (and none
larger), and the multiset union of all batches is exactly the original
available-host list, each host once; for `serial <= 0` it produces a single batch
of all available hosts. -/
theorem c4_serial_batching (serial : Int) (hosts : List Host) :
    (0 < serial →
      (serializeBatch serial hosts).length =
          (hosts.length + serial.toNat - 1) / serial.toNat ∧
      (∀ b ∈ (serializeBatch serial hosts).dropLast, b.length = serial.toNat) ∧
      (∀ b ∈ serializeBatch serial hosts, b.length ≤ serial.toNat) ∧
      (serializeBatch serial hosts).flatten.Perm hosts) ∧
    (serial ≤ 0 → serializeBatch serial hosts = [hosts]) := by
  constructor
  · intro hpos
    have hk : 1 ≤ serial.toNat := by omega
    rw [serializeBatch_eq_chunks serial hpos]
    refine ⟨?_, ?_, ?_, ?_⟩
    · rw [consecutiveChunks_length _ hk hosts.reverse.length hosts.reverse (le_refl _)]
      simp
    · exact (consecutiveChunks_sizes _ hk hosts.reverse.length hosts.reverse (le_refl _)).1
    · exact (consecutiveChunks_sizes _ hk hosts.reverse.length hosts.reverse (le_refl _)).2
    · rw [consecutiveChunks_flatten _ hosts.reverse.length hosts.reverse (le_refl _)]
      exact List.reverse_perm hosts
  · intro h
    simp [serializeBatch, h]

theorem c4_serial_batching_witness :
    (0 < (2 : Int) ∧
      (serializeBatch 2 ["a", "b", "c", "d", "e"]).length =
        ((["a", "b", "c", "d", "e"] : List Host).length + (2 : Int).toNat - 1) /
          (2 : Int).toNat ∧
      (serializeBatch 2 ["a", "b", "c", "d", "e"]).flatten.Perm
        ["a", "b", "c", "d", "e"]) ∧
    ((-1 : Int) ≤ 0 ∧ serializeBatch (-1) ["a", "b"] = [["a", "b"]]) :=
  ⟨⟨by decide, ((c4_serial_batching 2 ["a", "b", "c", "d", "e"]).1 (by decide)).1,
      ((c4_serial_batching 2 ["a", "b", "c", "d", "e"]).1 (by decide)).2.2.2⟩,
    ⟨by decide, (c4_serial_batching (-1) ["a", "b"]).2 (by decide)⟩⟩

/-! ## Claim C5 — batch order -/

/-- **C5** (counterexample): the claim says that for `serial = k > 0` the first
batch is the first `k` hosts of the available-host list in list order; but the
engine pops hosts off the END of the list, so `["a", "b"]` with `serial = 1` yields
`[["b"], ["a"]]`, not `[["a"], ["b"]]`. -/
theorem c5_order_counterexample :
    serializeBatch 1 ["a", "b"] = [["b"], ["a"]] ∧
      serializeBatch 1 ["a", "b"] ≠ [["a"], ["b"]] := by
  decide

/-- **C5** (amended): for `serial = k > 0` the batches are the consecutive groups
of size `k` of the REVERSED available-host list — the engine drains hosts from the
tail of the list, so batch order and host order within each batch are the reverse
of the order the available-host list has. -/
theorem c5_batches_reverse_chunks (serial : Int) (hosts : List Host)
    (h : 0 < serial) :
    serializeBatch serial hosts = consecutiveChunks serial.toNat hosts.reverse :=
  serializeBatch_eq_chunks serial h hosts

theorem c5_batches_reverse_chunks_witness :
    0 < (2 : Int) ∧
      serializeBatch 2 ["a", "b", "c"] =
        consecutiveChunks (2 : Int).toNat (["a", "b", "c"] : List Host).reverse :=
  ⟨by decide, c5_batches_reverse_chunks 2 ["a", "b", "c"] (by decide)⟩

/-! ## Claim C8 — include variable merge -/

/-- **C8** (code-bug evidence): merging inherited vars `{"x": 1}` into a play whose
`vars` block is a list appends the mapping `{"k": 1}` — the literal key `"k"`
produced by Python's `dict(k=v)` — whereas the singleton mapping the claim (and the
adjacent dict branch) describe would be `{"x": 1}`. -/
theorem c8_list_vars_literal_k :
    mergeInheritedVars [("x", .nat 1)] [("vars", .list [])] =
      [("vars", .list [.dict [("k", .nat 1)]])] ∧
    mergeInheritedVarsSpecList [("x", .nat 1)] [] = [.dict [("x", .nat 1)]] := by
  exact ⟨rfl, rfl⟩

/-! ## Claim C10 — register folding -/

/-- Folding a result for a different host leaves a host's cache entry unchanged. -/
theorem foldOneContacted_other (task : EngineTask) (extra : Dict) (cache : HDict)
    (h h' : Host) (res : Dict) (hne : h ≠ h') :
    hdictGet (foldOneContacted task extra cache h' res) h = hdictGet cache h := by
  simp only [foldOneContacted]
  by_cases hskip : (dictGetD res "skipped" (.bool false)).truthy = true
  · rw [if_pos hskip]
  · rw [if_neg hskip]
    cases task.register with
    | none =>
      simp only [hdictGet, hdictSet]
      rw [alGet_alSet]
      simp [hne]
    | some reg =>
      simp only [hdictGet, hdictSet]
      rw [alGet_alSet]
      simp [hne]

/-- Folding results for hosts other than `h` leaves `h`'s cache entry unchanged. -/
theorem foldContacted_not_mem (task : EngineTask) (extra : Dict) :
    ∀ (contacted : HDict) (cache : HDict) (h : Host),
      h ∉ contacted.map Prod.fst →
      hdictGet (foldContacted task extra cache contacted) h = hdictGet cache h := by
  intro contacted
  induction contacted with
  | nil => intro cache h _; rfl
  | cons p rest ih =>
    intro cache h hmem
    simp only [List.map_cons, List.mem_cons, not_or] at hmem
    have hstep : foldContacted task extra cache (p :: rest) =
        foldContacted task extra (foldOneContacted task extra cache p.1 p.2) rest := rfl
    rw [hstep, ih _ h hmem.2, foldOneContacted_other _ _ _ _ _ _ hmem.1]

/-- **C10**: when a task declares a register name, every contacted host whose
result is not marked skipped ends the task-folding step with the full result dict
(with `stdout_lines` added when `stdout` is present) stored in its fact-cache entry
under the register name — in particular the stored value is the task result even
when the register name is also an extra-vars key, because the register write
happens after the extra-vars overwrite; a skipped host's cache entry is untouched. -/
theorem c10_register_fold (task : EngineTask) (reg : String)
    (hreg : task.register = Option.some reg) (extra : Dict) :
    ∀ (contacted : HDict) (cache : HDict) (h : Host) (res : Dict),
      (contacted.map Prod.fst).Nodup → (h, res) ∈ contacted →
      (¬ (dictGetD res "skipped" (.bool false)).truthy = true →
        ∃ entry,
          hdictGet (foldContacted task extra cache contacted) h = Option.some entry ∧
          dictGet entry reg = Option.some (.dict (registeredResult res))) ∧
      ((dictGetD res "skipped" (.bool false)).truthy = true →
        hdictGet (foldContacted task extra cache contacted) h = hdictGet cache h) := by
  intro contacted
  induction contacted with
  | nil =>
    intro cache h res _ hmem
    exact absurd hmem (List.not_mem_nil _)
  | cons p rest ih =>
    intro cache h res hnodup hmem
    rw [List.map_cons] at hnodup
    have hn2 := List.nodup_cons.mp hnodup
    rcases List.mem_cons.mp hmem with hhead | htail
    · subst hhead
      have hstep : foldContacted task extra cache ((h, res) :: rest) =
          foldContacted task extra (foldOneContacted task extra cache h res) rest := rfl
      rw [hstep, foldContacted_not_mem task extra rest _ h hn2.1]
      constructor
      · intro hns
        simp only [foldOneContacted, if_neg hns, hreg]
        refine ⟨dictSet (dictUpdate (dictUpdate ((hdictGet cache h).getD [])
            (match dictGet res "ansible_facts" with
             | Option.some (.dict f) => f
             | _ => [])) extra) reg (.dict (registeredResult res)), ?_, ?_⟩
        · simp only [hdictGet, hdictSet]
          rw [alGet_alSet]
          simp
        · simp only [dictGet, dictSet]
          rw [alGet_alSet]
          simp
      · intro hs
        simp only [foldOneContacted, if_pos hs]
    · have hne : h ≠ p.1 := by
        intro hcon
        exact hn2.1 (hcon ▸ List.mem_map.mpr ⟨(h, res), htail, rfl⟩)
      have hmain := ih (foldOneContacted task extra cache p.1 p.2) h res hn2.2 htail
      refine ⟨hmain.1, ?_⟩
      intro hs
      have hstep : foldContacted task extra cache (p :: rest) =
          foldContacted task extra (foldOneContacted task extra cache p.1 p.2) rest := rfl
      rw [hstep, hmain.2 hs, foldOneContacted_other _ _ _ _ _ _ hne]

/-! ## Balance and trace-predicate helpers -/

theorem simFold_append (t1 t2 : List Event) (d : Option (Nat × Nat)) :
    simFold (t1 ++ t2) d = simFold t2 (simFold t1 d) := by
  simp [simFold, List.foldl_append]

theorem balanced_nil : BalancedSeg [] := fun _ _ => rfl

theorem balanced_append {t1 t2 : List Event} (h1 : BalancedSeg t1)
    (h2 : BalancedSeg t2) : BalancedSeg (t1 ++ t2) := by
  intro r a
  rw [simFold_append, h1, h2]

theorem balanced_neutral {tl : List Event} (h : ∀ e ∈ tl, neutralEvent e = true) :
    BalancedSeg tl := by
  induction tl with
  | nil => exact balanced_nil
  | cons e rest ih =>
    intro r a
    have he := h e (List.mem_cons_self e rest)
    have hstep : stackStep (Option.some (r, a)) e = Option.some (r, a) := by
      cases e <;> first
        | rfl
        | simp [neutralEvent] at he
    have hrest : BalancedSeg rest :=
      ih (fun e he' => h e (List.mem_cons_of_mem _ he'))
    show simFold rest (stackStep (Option.some (r, a)) e) = Option.some (r, a)
    rw [hstep]
    exact hrest r a

theorem balanced_restrict_pair {tl : List Event} (h : BalancedSeg tl)
    (hs : List Host) :
    BalancedSeg (Event.restrictTo hs :: (tl ++ [Event.liftRestriction])) := by
  intro r a
  show simFold (tl ++ [Event.liftRestriction])
    (stackStep (Option.some (r, a)) (.restrictTo hs)) = Option.some (r, a)
  rw [simFold_append]
  have h1 : stackStep (Option.some (r, a)) (.restrictTo hs) = Option.some (r + 1, a) := rfl
  rw [h1, h (r + 1) a]
  rfl

theorem leak_also {tl : List Event} (h : BalancedSeg tl) (hs : List Host) :
    LeakAlsoSeg (Event.alsoRestrictTo hs :: tl) := by
  intro r a
  show simFold tl (stackStep (Option.some (r, a)) (.alsoRestrictTo hs)) =
    Option.some (r, a + 1)
  have h1 : stackStep (Option.some (r, a)) (.alsoRestrictTo hs) =
      Option.some (r, a + 1) := rfl
  rw [h1, h r (a + 1)]

theorem balanced_also_pair {tl : List Event} (h : BalancedSeg tl) (hs : List Host) :
    BalancedSeg (Event.alsoRestrictTo hs :: (tl ++ [Event.liftAlsoRestriction])) := by
  intro r a
  show simFold (tl ++ [Event.liftAlsoRestriction])
    (stackStep (Option.some (r, a)) (.alsoRestrictTo hs)) = Option.some (r, a)
  rw [simFold_append]
  have h1 : stackStep (Option.some (r, a)) (.alsoRestrictTo hs) =
      Option.some (r, a + 1) := rfl
  rw [h1, h r (a + 1)]
  rfl

theorem traceOk_append {t1 t2 : List Event} (h1 : TraceOk t1) (h2 : TraceOk t2) :
    TraceOk (t1 ++ t2) := by
  intro e he
  rcases List.mem_append.mp he with h | h
  · exact h1 e h
  · exact h2 e h

theorem traceOk_nonexec {tl : List Event}
    (h : ∀ e ∈ tl, ∀ hs inv st, e ≠ .execCall hs inv st) : TraceOk tl := by
  intro e he
  match e with
  | .execCall hs inv st => exact absurd rfl (h _ he hs inv st)
  | .onStart | .onPlayStart _ | .onNoHostsMatched | .onNoHostsRemaining | .onSetup
  | .setupExec _ | .onTaskStart _ _ | .restrictTo _ | .liftRestriction
  | .alsoRestrictTo _ | .liftAlsoRestriction | .onNotify _ _ | .onFailed _ _ =>
    trivial

theorem countExec_append (t1 t2 : List Event) :
    countExec (t1 ++ t2) = countExec t1 + countExec t2 := List.countP_append _ _ _

theorem countHandlerStarts_append (t1 t2 : List Event) :
    countHandlerStarts (t1 ++ t2) = countHandlerStarts t1 + countHandlerStarts t2 :=
  List.countP_append _ _ _

/-- Membership in the available-host list certifies absence from failures/dark. -/
theorem listAvailableHosts_excludes (inv : Inventory) (st : Stats)
    (pat : Option (List Host)) (h : Host)
    (hmem : h ∈ listAvailableHosts inv st pat) :
    counterHas st.failures h = false ∧ counterHas st.dark h = false := by
  unfold listAvailableHosts at hmem
  have hcond := (List.mem_filter.mp hmem).2
  simp only [Bool.and_eq_true, Bool.not_eq_true'] at hcond
  exact hcond

/-- The availability-recording executor event the engine emits is always
availability-correct. -/
theorem execCallOk_emit (inv : Inventory) (st : Stats) :
    execCallOk (.execCall (listAvailableHosts inv st Option.none) inv st) := by
  refine ⟨rfl, fun h hmem => listAvailableHosts_excludes inv st Option.none h hmem⟩

/-- `asyncPoll` only appends trace events: every other state field is unchanged. -/
theorem asyncPoll_fields :
    ∀ (toPoll : List Host) (r w : ExecResult) (s : EngineState),
      (asyncPoll ⟨r, w, toPoll⟩ s).2.inventory = s.inventory ∧
      (asyncPoll ⟨r, w, toPoll⟩ s).2.handlers = s.handlers ∧
      (asyncPoll ⟨r, w, toPoll⟩ s).2.stats = s.stats ∧
      (asyncPoll ⟨r, w, toPoll⟩ s).2.setupCache = s.setupCache ∧
      (asyncPoll ⟨r, w, toPoll⟩ s).2.onlyTags = s.onlyTags ∧
      (asyncPoll ⟨r, w, toPoll⟩ s).2.extraVars = s.extraVars ∧
      (asyncPoll ⟨r, w, toPoll⟩ s).2.oracle = s.oracle := by
  intro toPoll
  induction toPoll with
  | nil => intro r w s; exact ⟨rfl, rfl, rfl, rfl, rfl, rfl, rfl⟩
  | cons h0 hs ih =>
    intro r w s
    rw [asyncPoll_cons]
    exact ih r _ _

theorem ite_pair_snd {c : Prop} [Decidable c] {α β : Type} (a b : α) (z : β) :
    (if c then (a, z) else (b, z)).2 = z := by
  by_cases h : c <;> simp [h]

/-- `asyncPoll_fields` restated for an arbitrary outcome value. -/
theorem asyncPoll_fields2 (out : ExecOutcome) (st : EngineState) :
    (asyncPoll out st).2.inventory = st.inventory ∧
    (asyncPoll out st).2.handlers = st.handlers ∧
    (asyncPoll out st).2.stats = st.stats ∧
    (asyncPoll out st).2.setupCache = st.setupCache ∧
    (asyncPoll out st).2.onlyTags = st.onlyTags ∧
    (asyncPoll out st).2.extraVars = st.extraVars ∧
    (asyncPoll out st).2.oracle = st.oracle :=
  asyncPoll_fields out.hostsToPoll out.results out.waitResults st

/-- After any `_run_task_internal` run, the final state is a lifted version of a
mid-state whose trace is the input trace plus the dispatch events (executor call,
restriction push, possibly async-failure callbacks), and whose non-trace fields
other than stats/cache/oracle are untouched. -/
theorem runTaskInternal_mid (task : EngineTask) (s : EngineState) :
    ∃ (mid : EngineState) (tlp : List Event),
      (runTaskInternal task s).2 = liftRestrictionS mid ∧
      mid.trace = (s.trace ++
        [Event.execCall (listAvailableHosts s.inventory s.stats Option.none)
          s.inventory s.stats] ++
        [Event.restrictTo (listAvailableHosts s.inventory s.stats Option.none)]) ++ tlp ∧
      (∀ e ∈ tlp, ∃ h, e = .onFailed h timedOutReason) ∧
      mid.inventory =
        (s.inventory.restrictTo (listAvailableHosts s.inventory s.stats Option.none)) ∧
      mid.handlers = s.handlers ∧
      mid.onlyTags = s.onlyTags ∧
      mid.extraVars = s.extraVars := by
  by_cases ha : task.asyncSeconds = 0
  · let S : EngineState :=
      { inventory := s.inventory.restrictTo
          (listAvailableHosts s.inventory s.stats Option.none)
        stats := s.stats
        setupCache := s.setupCache
        handlers := s.handlers
        extraVars := s.extraVars
        onlyTags := s.onlyTags
        trace := (s.trace ++
          [Event.execCall (listAvailableHosts s.inventory s.stats Option.none)
            s.inventory s.stats]) ++
          [Event.restrictTo (listAvailableHosts s.inventory s.stats Option.none)]
        oracle := s.oracle.tail }
    refine ⟨S, [], ?_, ?_, by simp, ?_, ?_, ?_, ?_⟩
    · simp only [runTaskInternal, nextOutcome, if_pos ha]
      exact ite_pair_snd _ _ _
    · simp only [List.append_nil]
    · rfl
    · rfl
    · rfl
    · rfl
  · by_cases hp : task.asyncPollInterval > 0
    · let S : EngineState :=
        { inventory := s.inventory.restrictTo
            (listAvailableHosts s.inventory s.stats Option.none)
          stats := s.stats.compute (s.oracle.headD defaultOutcome).results false
          setupCache := s.setupCache
          handlers := s.handlers
          extraVars := s.extraVars
          onlyTags := s.onlyTags
          trace := (s.trace ++
            [Event.execCall (listAvailableHosts s.inventory s.stats Option.none)
              s.inventory s.stats]) ++
            [Event.restrictTo (listAvailableHosts s.inventory s.stats Option.none)]
          oracle := s.oracle.tail }
      obtain ⟨tlp, htlp, htlpev⟩ :=
        (asyncPoll_spec2 (s.oracle.headD defaultOutcome) S).2.2.2
      obtain ⟨hfi, hfh, _, _, hfo, hfe, _⟩ :=
        asyncPoll_fields2 (s.oracle.headD defaultOutcome) S
      refine ⟨(asyncPoll (s.oracle.headD defaultOutcome) S).2, tlp, ?_, ?_, htlpev,
        ?_, ?_, ?_, ?_⟩
      · simp only [runTaskInternal, nextOutcome, if_neg ha]
        rw [if_pos hp]
        exact ite_pair_snd _ _ _
      · rw [htlp]
      · rw [hfi]
      · rw [hfh]
      · rw [hfo]
      · rw [hfe]
    · let S : EngineState :=
        { inventory := s.inventory.restrictTo
            (listAvailableHosts s.inventory s.stats Option.none)
          stats := s.stats.compute (s.oracle.headD defaultOutcome).results false
          setupCache := s.setupCache
          handlers := s.handlers
          extraVars := s.extraVars
          onlyTags := s.onlyTags
          trace := (s.trace ++
            [Event.execCall (listAvailableHosts s.inventory s.stats Option.none)
              s.inventory s.stats]) ++
            [Event.restrictTo (listAvailableHosts s.inventory s.stats Option.none)]
          oracle := s.oracle.tail }
      refine ⟨S, [], ?_, ?_, by simp, ?_, ?_, ?_, ?_⟩
      · simp only [runTaskInternal, nextOutcome, if_neg ha, if_neg hp]
        exact ite_pair_snd _ _ _
      · simp only [List.append_nil]
      · rfl
      · rfl
      · rfl
      · rfl

theorem NotifyExt.refl (s : EngineState) : NotifyExt s s :=
  ⟨⟨[], by simp, by simp⟩, rfl, rfl, rfl, rfl, rfl, rfl, rfl⟩

theorem NotifyExt.trans {s1 s2 s3 : EngineState} (h1 : NotifyExt s1 s2)
    (h2 : NotifyExt s2 s3) : NotifyExt s1 s3 := by
  obtain ⟨⟨t1, ht1, he1⟩, hl1, hi1, ho1, hx1, hst1, hc1, hor1⟩ := h1
  obtain ⟨⟨t2, ht2, he2⟩, hl2, hi2, ho2, hx2, hst2, hc2, hor2⟩ := h2
  refine ⟨⟨t1 ++ t2, ?_, ?_⟩, hl2.trans hl1, hi2.trans hi1, ho2.trans ho1,
    hx2.trans hx1, hst2.trans hst1, hc2.trans hc1, hor2.trans hor1⟩
  · rw [ht2, ht1, List.append_assoc]
  · intro e he
    rcases List.mem_append.mp he with h | h
    · exact he1 e h
    · exact he2 e h

theorem flagHandler_notifyExt (n : String) (host : Host) (s : EngineState) :
    NotifyExt s (flagHandler n host s).state := by
  have hstate : (flagHandler n host s).state =
      { s with
        trace := s.trace ++
          ((s.handlers.filter (fun x => x.name == n)).map
            (fun x => Event.onNotify host x.name))
        handlers := s.handlers.map (fun x =>
          if x.name == n then { x with notifiedBy := x.notifiedBy ++ [host] }
          else x) } := by
    unfold flagHandler
    by_cases hf : (s.handlers.any (fun x => x.name == n)) = true <;>
      simp [hf, ERes.state]
  rw [hstate]
  refine ⟨⟨_, rfl, ?_⟩, by simp, rfl, rfl, rfl, rfl, rfl, rfl⟩
  intro e he
  obtain ⟨x, _, hx⟩ := List.mem_map.mp he
  exact ⟨host, x.name, hx.symm⟩

theorem notifyAll_notifyExt (names : List String) :
    ∀ (host : Host) (s : EngineState), NotifyExt s (notifyAll names host s).state := by
  induction names with
  | nil => intro host s; exact NotifyExt.refl s
  | cons n rest ih =>
    intro host s
    show NotifyExt s (notifyAll (n :: rest) host s).state
    unfold notifyAll
    match hf : flagHandler n host s with
    | .err e s' =>
      have := flagHandler_notifyExt n host s
      rw [hf] at this
      exact this
    | .ok _ s' =>
      have h1 := flagHandler_notifyExt n host s
      rw [hf] at h1
      exact NotifyExt.trans h1 (ih host s')

theorem notifyContacted_notifyExt (names : List String) :
    ∀ (contacted : HDict) (s : EngineState),
      NotifyExt s (notifyContacted names contacted s).state := by
  intro contacted
  induction contacted with
  | nil => intro s; exact NotifyExt.refl s
  | cons p rest ih =>
    intro s
    show NotifyExt s (notifyContacted names (p :: rest) s).state
    unfold notifyContacted
    by_cases hch : ((dictGetD p.2 "changed" (.bool false)).truthy) = true
    · rw [if_pos hch]
      match hf : notifyAll names p.1 s with
      | .err e s' =>
        have := notifyAll_notifyExt names p.1 s
        rw [hf] at this
        exact this
      | .ok _ s' =>
        have h1 := notifyAll_notifyExt names p.1 s
        rw [hf] at h1
        exact NotifyExt.trans h1 (ih s')
    · rw [if_neg hch]
      exact ih s

/-- The flattened segment description of `_run_task_internal`. -/
theorem runTaskInternal_seg (task : EngineTask) (s : EngineState) :
    ∃ tl,
      (runTaskInternal task s).2.trace = s.trace ++ tl ∧
      countExec tl = 1 ∧
      countHandlerStarts tl = 0 ∧
      BalancedSeg tl ∧
      TraceOk tl ∧
      (runTaskInternal task s).2.inventory = s.inventory ∧
      (runTaskInternal task s).2.handlers = s.handlers ∧
      (runTaskInternal task s).2.onlyTags = s.onlyTags ∧
      (runTaskInternal task s).2.extraVars = s.extraVars := by
  obtain ⟨mid, tlp, hstate, htrace, htlpev, hinv, hh, ho, he⟩ := runTaskInternal_mid task s
  have htlpn : ∀ e ∈ tlp, neutralEvent e = true := by
    intro e hmem
    obtain ⟨h, hh'⟩ := htlpev e hmem
    subst hh'
    rfl
  have htlpexec : countExec tlp = 0 := by
    rw [countExec, List.countP_eq_zero]
    intro e hmem
    obtain ⟨h, hh'⟩ := htlpev e hmem
    subst hh'
    simp
  have htlphs : countHandlerStarts tlp = 0 := by
    rw [countHandlerStarts, List.countP_eq_zero]
    intro e hmem
    obtain ⟨h, hh'⟩ := htlpev e hmem
    subst hh'
    simp
  refine ⟨Event.execCall (listAvailableHosts s.inventory s.stats Option.none)
      s.inventory s.stats ::
    Event.restrictTo (listAvailableHosts s.inventory s.stats Option.none) ::
      (tlp ++ [Event.liftRestriction]), ?_, ?_, ?_, ?_, ?_, ?_, ?_, ?_, ?_⟩
  · rw [hstate, liftRestrictionS_trace, htrace]
    simp [List.append_assoc]
  · rw [countExec] at htlpexec ⊢
    simp [List.countP_cons, List.countP_append, htlpexec]
  · rw [countHandlerStarts] at htlphs ⊢
    simp [List.countP_cons, List.countP_append, htlphs]
  · show BalancedSeg
      ([Event.execCall (listAvailableHosts s.inventory s.stats Option.none)
          s.inventory s.stats] ++
        (Event.restrictTo (listAvailableHosts s.inventory s.stats Option.none) ::
          (tlp ++ [Event.liftRestriction])))
    exact balanced_append (balanced_neutral (by
        intro e he'
        rcases List.mem_cons.mp he' with h1 | h0
        · subst h1; rfl
        · exact absurd h0 (List.not_mem_nil e)))
      (balanced_restrict_pair (balanced_neutral htlpn) _)
  · intro e hmem
    rcases List.mem_cons.mp hmem with h1 | hmem2
    · subst h1
      exact execCallOk_emit s.inventory s.stats
    · rcases List.mem_cons.mp hmem2 with h1 | hmem3
      · subst h1; trivial
      · rcases List.mem_append.mp hmem3 with hp | hl
        · obtain ⟨h, hh'⟩ := htlpev e hp
          subst hh'
          trivial
        · rcases List.mem_cons.mp hl with h1 | h0
          · subst h1; trivial
          · exact absurd h0 (List.not_mem_nil e)
  · rw [hstate, liftRestrictionS_inventory, hinv]
    rfl
  · rw [hstate, liftRestrictionS_handlers, hh]
  · rw [hstate, liftRestrictionS_onlyTags, ho]
  · rw [hstate, liftRestrictionS_extraVars, he]

/-- The final state of `_run_task` is a notification-extension of the state after
`_run_task_internal` plus the stats/fact-cache folding (which do not touch the
trace, the inventory, the handler list, or the run configuration). -/
theorem runTask_mid (task : EngineTask) (ih : Bool) (s : EngineState) :
    ∃ (mid : EngineState),
      NotifyExt mid ((runTask task ih s).state) ∧
      mid.trace = (runTaskInternal task (emit s (Event.onTaskStart task.name ih))).2.trace ∧
      mid.handlers =
        (runTaskInternal task (emit s (Event.onTaskStart task.name ih))).2.handlers ∧
      mid.inventory =
        (runTaskInternal task (emit s (Event.onTaskStart task.name ih))).2.inventory ∧
      mid.onlyTags =
        (runTaskInternal task (emit s (Event.onTaskStart task.name ih))).2.onlyTags ∧
      mid.extraVars =
        (runTaskInternal task (emit s (Event.onTaskStart task.name ih))).2.extraVars := by
  refine ⟨{ inventory := (runTaskInternal task (emit s (Event.onTaskStart task.name ih))).2.inventory
            stats := (runTaskInternal task (emit s (Event.onTaskStart task.name ih))).2.stats.compute
              ((runTaskInternal task (emit s (Event.onTaskStart task.name ih))).1.getD emptyResult)
              task.ignoreErrors
            setupCache := foldContacted task
              (runTaskInternal task (emit s (Event.onTaskStart task.name ih))).2.extraVars
              (runTaskInternal task (emit s (Event.onTaskStart task.name ih))).2.setupCache
              ((runTaskInternal task (emit s (Event.onTaskStart task.name ih))).1.getD
                emptyResult).contacted
            handlers := (runTaskInternal task (emit s (Event.onTaskStart task.name ih))).2.handlers
            extraVars := (runTaskInternal task (emit s (Event.onTaskStart task.name ih))).2.extraVars
            onlyTags := (runTaskInternal task (emit s (Event.onTaskStart task.name ih))).2.onlyTags
            trace := (runTaskInternal task (emit s (Event.onTaskStart task.name ih))).2.trace
            oracle := (runTaskInternal task (emit s (Event.onTaskStart task.name ih))).2.oracle },
    ?_, rfl, rfl, rfl, rfl, rfl⟩
  by_cases hni : task.notify.isEmpty = true
  · have hstate : (runTask task ih s).state =
        { inventory := (runTaskInternal task (emit s (Event.onTaskStart task.name ih))).2.inventory
          stats := (runTaskInternal task (emit s (Event.onTaskStart task.name ih))).2.stats.compute
            ((runTaskInternal task (emit s (Event.onTaskStart task.name ih))).1.getD emptyResult)
            task.ignoreErrors
          setupCache := foldContacted task
            (runTaskInternal task (emit s (Event.onTaskStart task.name ih))).2.extraVars
            (runTaskInternal task (emit s (Event.onTaskStart task.name ih))).2.setupCache
            ((runTaskInternal task (emit s (Event.onTaskStart task.name ih))).1.getD
              emptyResult).contacted
          handlers := (runTaskInternal task (emit s (Event.onTaskStart task.name ih))).2.handlers
          extraVars := (runTaskInternal task (emit s (Event.onTaskStart task.name ih))).2.extraVars
          onlyTags := (runTaskInternal task (emit s (Event.onTaskStart task.name ih))).2.onlyTags
          trace := (runTaskInternal task (emit s (Event.onTaskStart task.name ih))).2.trace
          oracle := (runTaskInternal task (emit s (Event.onTaskStart task.name ih))).2.oracle } := by
      simp only [runTask, if_pos hni]
      rfl
    rw [hstate]
    exact NotifyExt.refl _
  · have hstate : (runTask task ih s).state =
        (notifyContacted task.notify
          ((runTaskInternal task (emit s (Event.onTaskStart task.name ih))).1.getD
            emptyResult).contacted
          { inventory := (runTaskInternal task (emit s (Event.onTaskStart task.name ih))).2.inventory
            stats := (runTaskInternal task (emit s (Event.onTaskStart task.name ih))).2.stats.compute
              ((runTaskInternal task (emit s (Event.onTaskStart task.name ih))).1.getD emptyResult)
              task.ignoreErrors
            setupCache := foldContacted task
              (runTaskInternal task (emit s (Event.onTaskStart task.name ih))).2.extraVars
              (runTaskInternal task (emit s (Event.onTaskStart task.name ih))).2.setupCache
              ((runTaskInternal task (emit s (Event.onTaskStart task.name ih))).1.getD
                emptyResult).contacted
            handlers := (runTaskInternal task (emit s (Event.onTaskStart task.name ih))).2.handlers
            extraVars := (runTaskInternal task (emit s (Event.onTaskStart task.name ih))).2.extraVars
            onlyTags := (runTaskInternal task (emit s (Event.onTaskStart task.name ih))).2.onlyTags
            trace := (runTaskInternal task (emit s (Event.onTaskStart task.name ih))).2.trace
            oracle := (runTaskInternal task (emit s (Event.onTaskStart task.name ih))).2.oracle }).state := by
      simp only [runTask, if_neg hni]
      cases hnc : notifyContacted task.notify
          ((runTaskInternal task (emit s (Event.onTaskStart task.name ih))).1.getD
            emptyResult).contacted
          { inventory := (runTaskInternal task (emit s (Event.onTaskStart task.name ih))).2.inventory
            stats := (runTaskInternal task (emit s (Event.onTaskStart task.name ih))).2.stats.compute
              ((runTaskInternal task (emit s (Event.onTaskStart task.name ih))).1.getD emptyResult)
              task.ignoreErrors
            setupCache := foldContacted task
              (runTaskInternal task (emit s (Event.onTaskStart task.name ih))).2.extraVars
              (runTaskInternal task (emit s (Event.onTaskStart task.name ih))).2.setupCache
              ((runTaskInternal task (emit s (Event.onTaskStart task.name ih))).1.getD
                emptyResult).contacted
            handlers := (runTaskInternal task (emit s (Event.onTaskStart task.name ih))).2.handlers
            extraVars := (runTaskInternal task (emit s (Event.onTaskStart task.name ih))).2.extraVars
            onlyTags := (runTaskInternal task (emit s (Event.onTaskStart task.name ih))).2.onlyTags
            trace := (runTaskInternal task (emit s (Event.onTaskStart task.name ih))).2.trace
            oracle := (runTaskInternal task (emit s (Event.onTaskStart task.name ih))).2.oracle } <;>
        rfl
    rw [hstate]
    exact notifyContacted_notifyExt _ _ _

/-- The flattened segment description of `_run_task`. -/
theorem runTask_seg (task : EngineTask) (ihd : Bool) (s : EngineState) :
    ∃ tl, ((runTask task ihd s).state).trace = s.trace ++ tl ∧
      countExec tl = 1 ∧
      countHandlerStarts tl = (if ihd then 1 else 0) ∧
      BalancedSeg tl ∧
      TraceOk tl ∧
      ((runTask task ihd s).state).handlers.length = s.handlers.length ∧
      ((runTask task ihd s).state).inventory = s.inventory ∧
      ((runTask task ihd s).state).onlyTags = s.onlyTags ∧
      ((runTask task ihd s).state).extraVars = s.extraVars := by
  obtain ⟨mid, hnx, hmt, hmh, hmi, hmo, hmx⟩ := runTask_mid task ihd s
  obtain ⟨tli, htli, hce, hcs, hbal, hok, hinv, hh, ho, he⟩ :=
    runTaskInternal_seg task (emit s (.onTaskStart task.name ihd))
  obtain ⟨⟨tln, htln, htlnev⟩, hlen2, hinv2, ho2, hx2, _, _, _⟩ := hnx
  have htlnn : ∀ e ∈ tln, neutralEvent e = true := by
    intro e hmem
    obtain ⟨h, hn, hh'⟩ := htlnev e hmem
    subst hh'
    rfl
  have htlnexec : countExec tln = 0 := by
    rw [countExec, List.countP_eq_zero]
    intro e hmem
    obtain ⟨h, hn, hh'⟩ := htlnev e hmem
    subst hh'
    simp
  have htlnhs : countHandlerStarts tln = 0 := by
    rw [countHandlerStarts, List.countP_eq_zero]
    intro e hmem
    obtain ⟨h, hn, hh'⟩ := htlnev e hmem
    subst hh'
    simp
  refine ⟨Event.onTaskStart task.name ihd :: (tli ++ tln), ?_, ?_, ?_, ?_, ?_, ?_, ?_, ?_, ?_⟩
  · rw [htln, hmt, htli, emit_trace]
    simp [List.append_assoc]
  · rw [countExec] at hce htlnexec ⊢
    simp [List.countP_cons, List.countP_append, hce, htlnexec]
  · rw [countHandlerStarts] at hcs htlnhs ⊢
    simp only [List.countP_cons, List.countP_append, hcs, htlnhs]
    cases ihd <;> simp
  · show BalancedSeg ([Event.onTaskStart task.name ihd] ++ (tli ++ tln))
    refine balanced_append (balanced_neutral ?_) (balanced_append hbal (balanced_neutral htlnn))
    intro e he'
    rcases List.mem_cons.mp he' with h1 | h0
    · subst h1; rfl
    · exact absurd h0 (List.not_mem_nil e)
  · intro e hmem
    rcases List.mem_cons.mp hmem with h1 | hmem2
    · subst h1; trivial
    · rcases List.mem_append.mp hmem2 with hp | hl
      · exact hok e hp
      · obtain ⟨h, hn, hh'⟩ := htlnev e hl
        subst hh'
        trivial
  · rw [hlen2, hmh, hh, emit_handlers]
  · rw [hinv2, hmi, hinv, emit_inventory]
  · rw [ho2, hmo, ho, emit_onlyTags]
  · rw [hx2, hmx, he, emit_extraVars]

/-! ## Claim C3 — handler processing -/

/-- **C3**: at the end of each batch handlers are processed in declaration order
(the loop handles index `i` and only then moves to `i+1`); a handler whose
`notified_by` is empty is not executed at all (the step is a no-op); a handler with
a non-empty `notified_by` is dispatched exactly once for that batch: the engine
pushes a restriction of exactly its `notified_by` hosts, runs it as a handler
(exactly one executor dispatch and one handler-flagged task start), lifts the
restriction (the inventory's restriction stack is restored), and resets the
handler's `notified_by` to empty. -/
theorem c3_handler_step :
    (∀ (fuel i : Nat) (s : EngineState),
      runHandlersFrom (fuel + 1) i s =
        (if i < s.handlers.length then
          match runHandlerStep i s with
          | .err e s' => .err e s'
          | .ok _ s' => runHandlersFrom fuel (i + 1) s'
        else .ok () s)) ∧
    (∀ (i : Nat) (s : EngineState) (hd : Handler),
      s.handlers[i]? = Option.some hd → hd.notifiedBy.isEmpty = true →
      runHandlerStep i s = .ok () s) ∧
    (∀ (i : Nat) (s : EngineState) (hd : Handler),
      s.handlers[i]? = Option.some hd → ¬ hd.notifiedBy.isEmpty = true →
      ∀ b s₁, runTask hd.task true (restrictToS hd.notifiedBy s) = .ok b s₁ →
      ∃ s',
        runHandlerStep i s = .ok () s' ∧
        s'.handlers[i]?.map Handler.notifiedBy = Option.some [] ∧
        s'.inventory = s.inventory ∧
        (∃ tl, s'.trace = s.trace ++ (Event.restrictTo hd.notifiedBy :: tl) ∧
          countExec (Event.restrictTo hd.notifiedBy :: tl) = 1 ∧
          countHandlerStarts (Event.restrictTo hd.notifiedBy :: tl) = 1 ∧
          BalancedSeg (Event.restrictTo hd.notifiedBy :: tl))) := by
  refine ⟨?_, ?_, ?_⟩
  · intro fuel i s
    rfl
  · intro i s hd hget hempty
    simp only [runHandlerStep, hget]
    rw [if_pos hempty]
  · intro i s hd hget hne b s₁ hrt
    obtain ⟨tlr, htlr, hce, hcs, hbal, _, hlen, hinv, _, _⟩ :=
      runTask_seg hd.task true (restrictToS hd.notifiedBy s)
    rw [hrt] at htlr hlen hinv
    simp only [ERes.state] at htlr hlen hinv
    have hlt : i < s.handlers.length := by
      obtain ⟨hl, _⟩ := List.getElem?_eq_some.mp hget
      exact hl
    have hlt1 : i < (liftRestrictionS s₁).handlers.length := by
      rw [liftRestrictionS_handlers, hlen, restrictToS_handlers]
      exact hlt
    refine ⟨{ liftRestrictionS s₁ with
      handlers := (liftRestrictionS s₁).handlers.set i
        { ((liftRestrictionS s₁).handlers.getD i hd) with notifiedBy := [] } },
      ?_, ?_, ?_, ?_⟩
    · simp only [runHandlerStep, hget, hrt]
      rw [if_neg hne]
    · show ((liftRestrictionS s₁).handlers.set i _)[i]?.map Handler.notifiedBy = _
      rw [List.getElem?_set_self hlt1]
      rfl
    · show (liftRestrictionS s₁).inventory = s.inventory
      rw [liftRestrictionS_inventory, hinv, restrictToS_inventory]
      rfl
    · refine ⟨tlr ++ [Event.liftRestriction], ?_, ?_, ?_, ?_⟩
      · show (liftRestrictionS s₁).trace = _
        rw [liftRestrictionS_trace, htlr, restrictToS_trace]
        simp
      · rw [countExec] at hce ⊢
        simp [List.countP_cons, List.countP_append, hce]
      · rw [countHandlerStarts] at hcs ⊢
        simp [List.countP_cons, List.countP_append, hcs]
      · exact balanced_restrict_pair hbal _

theorem c3_handler_step_witness :
    ((sampleState [sampleOkOutcome]).handlers = [] ∧
      runHandlersFrom (0 + 1) 0 (sampleState [sampleOkOutcome]) =
        .ok () (sampleState [sampleOkOutcome])) ∧
    ({ sampleState [sampleOkOutcome] with handlers := [sampleHandler] }.handlers[0]? =
        Option.some sampleHandler ∧
      sampleHandler.notifiedBy.isEmpty = true ∧
      runHandlerStep 0 { sampleState [sampleOkOutcome] with handlers := [sampleHandler] } =
        .ok () { sampleState [sampleOkOutcome] with handlers := [sampleHandler] }) ∧
    (∃ s',
      runHandlerStep 0
        { sampleState [sampleOkOutcome] with
          handlers := [{ sampleHandler with notifiedBy := ["a"] }] } = .ok () s' ∧
      s'.handlers[0]?.map Handler.notifiedBy = Option.some [] ∧
      s'.inventory =
        { sampleState [sampleOkOutcome] with
          handlers := [{ sampleHandler with notifiedBy := ["a"] }] }.inventory ∧
      (∃ tl,
        s'.trace =
          { sampleState [sampleOkOutcome] with
            handlers := [{ sampleHandler with notifiedBy := ["a"] }] }.trace ++
            (Event.restrictTo ["a"] :: tl) ∧
        countExec (Event.restrictTo ["a"] :: tl) = 1 ∧
        countHandlerStarts (Event.restrictTo ["a"] :: tl) = 1 ∧
        BalancedSeg (Event.restrictTo ["a"] :: tl))) := by
  refine ⟨⟨rfl, ?_⟩, ⟨rfl, rfl, ?_⟩, ?_⟩
  · rw [c3_handler_step.1 0 0 (sampleState [sampleOkOutcome])]
    rfl
  · exact c3_handler_step.2.1 0
      { sampleState [sampleOkOutcome] with handlers := [sampleHandler] } sampleHandler rfl rfl
  · exact c3_handler_step.2.2 0
      { sampleState [sampleOkOutcome] with
        handlers := [{ sampleHandler with notifiedBy := ["a"] }] }
      { sampleHandler with notifiedBy := ["a"] } rfl (by decide) _ _ rfl

/-! ## Claim C2 — abort and skip semantics -/

/-- **C2**: (i) a play whose pattern matches zero hosts at the very start emits
the no-hosts-matched notice and is treated as successfully skipped; (ii) the play
loop stops at the first play that reports failure, processing no subsequent play;
(iii) a task whose executor result has zero contacted and zero dark hosts makes
the task report failure (`hosts_remaining = false`); (iv) an empty available-host
set after a task aborts the play with the no-hosts-remaining notice; (v) `run()`
still builds the per-host summary from Stats after the play loop stops. -/
theorem c2_abort_and_skip :
    (∀ (play : Play) (s : EngineState),
      (s.inventory.listHosts (Option.some play.hosts)).isEmpty = true →
      runPlay play s =
        .ok true (emit { emit s (.onPlayStart play.name) with handlers := play.handlers }
          .onNoHostsMatched)) ∧
    (∀ (p : Play) (rest : List Play) (s s' : EngineState),
      runPlay p s = .ok false s' → runPlays (p :: rest) s = .ok () s') ∧
    (∀ (task : EngineTask) (s : EngineState),
      task.asyncSeconds = 0 →
      (s.oracle.headD defaultOutcome).results = emptyResult →
      ∃ s', runTask task false s = .ok false s') ∧
    (∀ (play : Play) (task : EngineTask) (rest : List EngineTask) (s s' : EngineState),
      shouldRunTask s.onlyTags task = true →
      runTask task false s = .ok true s' →
      (listAvailableHosts s'.inventory s'.stats (Option.some play.hosts)).isEmpty = true →
      taskLoop play (task :: rest) s = .ok false (emit s' .onNoHostsRemaining)) ∧
    (∀ (playbook : List Play) (s s' : EngineState),
      unknownTagsOf playbook s.onlyTags = [] →
      runPlays (selectedPlays playbook s.onlyTags) (emit s .onStart) = .ok () s' →
      runPB playbook s = .ok (summaryOf s'.stats) s') := by
  refine ⟨?_, ?_, ?_, ?_, ?_⟩
  · intro play s hempty
    simp only [runPlay, emit_inventory]
    rw [if_pos hempty]
  · intro p rest s s' h
    simp only [runPlays, h]
  · intro task s ha hres
    have hval : (runTaskInternal task (emit s (Event.onTaskStart task.name false))).1 =
        Option.none := by
      simp only [runTaskInternal, nextOutcome, emit_oracle, restrictToS_oracle,
        if_pos ha, hres]
      rfl
    by_cases hni : task.notify.isEmpty = true
    · refine ⟨(runTask task false s).state, ?_⟩
      simp only [runTask, if_pos hni, hval, ERes.state]
      exact rfl
    · refine ⟨(runTask task false s).state, ?_⟩
      simp only [runTask, if_neg hni, hval, ERes.state]
      exact rfl
  · intro play task rest s s' hsr hrt hempty
    simp only [taskLoop, if_pos hsr, hrt, Bool.not_true, Bool.false_eq_true, if_false]
    rw [if_pos hempty]
  · intro pb s s' hunk hplays
    simp only [runPB, emit_onlyTags, hunk, hplays]
    rfl

theorem c2_abort_and_skip_witness :
    ((((sampleState []).inventory.listHosts
        (Option.some (⟨"p0", ["z"], [sampleTask], [], 0, Option.some false⟩ : Play).hosts)).isEmpty
          = true) ∧
      runPlay ⟨"p0", ["z"], [sampleTask], [], 0, Option.some false⟩ (sampleState []) =
        .ok true (emit { emit (sampleState []) (.onPlayStart "p0") with handlers := [] }
          .onNoHostsMatched)) ∧
    (runPlay sampleFailPlay (sampleState [sampleFailOutcome]) =
        .ok false ((runPlay sampleFailPlay (sampleState [sampleFailOutcome])).state) ∧
      runPlays (sampleFailPlay :: [sampleFailPlay]) (sampleState [sampleFailOutcome]) =
        .ok () ((runPlay sampleFailPlay (sampleState [sampleFailOutcome])).state)) ∧
    (sampleTask.asyncSeconds = 0 ∧
      ((sampleState []).oracle.headD defaultOutcome).results = emptyResult ∧
      (∃ s', runTask sampleTask false (sampleState []) = .ok false s')) ∧
    (shouldRunTask (sampleState [sampleFailOutcome]).onlyTags sampleTask = true ∧
      runTask sampleTask false (sampleState [sampleFailOutcome]) =
        .ok true ((runTask sampleTask false (sampleState [sampleFailOutcome])).state) ∧
      (listAvailableHosts
        ((runTask sampleTask false (sampleState [sampleFailOutcome])).state).inventory
        ((runTask sampleTask false (sampleState [sampleFailOutcome])).state).stats
        (Option.some sampleFailPlay.hosts)).isEmpty = true ∧
      taskLoop sampleFailPlay [sampleTask] (sampleState [sampleFailOutcome]) =
        .ok false (emit ((runTask sampleTask false (sampleState [sampleFailOutcome])).state)
          .onNoHostsRemaining)) ∧
    (unknownTagsOf [] (sampleState []).onlyTags = [] ∧
      runPB [] (sampleState []) =
        .ok (summaryOf ((emit (sampleState []) .onStart)).stats) (emit (sampleState []) .onStart)) := by
  refine ⟨⟨rfl, ?_⟩, ⟨rfl, ?_⟩, ⟨rfl, rfl, ?_⟩, ⟨rfl, rfl, rfl, ?_⟩, ⟨rfl, ?_⟩⟩
  · exact c2_abort_and_skip.1 _ (sampleState []) rfl
  · exact c2_abort_and_skip.2.1 sampleFailPlay [sampleFailPlay] (sampleState [sampleFailOutcome]) _ rfl
  · exact c2_abort_and_skip.2.2.1 sampleTask (sampleState []) rfl rfl
  · exact c2_abort_and_skip.2.2.2.1 sampleFailPlay sampleTask [] (sampleState [sampleFailOutcome]) _ rfl rfl rfl
  · exact c2_abort_and_skip.2.2.2.2 [] (sampleState []) _ rfl rfl

/-! ## Error-shape lemmas: the play loop only raises the undefined-handler error -/

theorem flagHandler_err (n : String) (host : Host) (s : EngineState) :
    ∀ e s', flagHandler n host s = .err e s' → errIsHandler e := by
  intro e s' h
  simp only [flagHandler] at h
  split at h
  · exact absurd h (by simp)
  · cases h
    exact ⟨n, rfl⟩

theorem notifyAll_err (names : List String) :
    ∀ (host : Host) (s : EngineState) (e : Err) (s' : EngineState),
      notifyAll names host s = .err e s' → errIsHandler e := by
  induction names with
  | nil =>
    intro host s e s' h
    exact absurd h (by simp [notifyAll])
  | cons n rest ih =>
    intro host s e s' h
    rw [notifyAll] at h
    split at h
    · cases h
      exact flagHandler_err n host s _ _ (by assumption)
    · exact ih host _ e s' h

theorem notifyContacted_err (names : List String) :
    ∀ (contacted : HDict) (s : EngineState) (e : Err) (s' : EngineState),
      notifyContacted names contacted s = .err e s' → errIsHandler e := by
  intro contacted
  induction contacted with
  | nil =>
    intro s e s' h
    exact absurd h (by simp [notifyContacted])
  | cons p rest ih =>
    intro s e s' h
    rw [notifyContacted] at h
    split at h
    · split at h
      · cases h
        exact notifyAll_err names p.1 s _ _ (by assumption)
      · exact ih _ e s' h
    · exact ih _ e s' h

theorem runTask_err (task : EngineTask) (ihd : Bool) (s : EngineState) :
    ∀ e s', runTask task ihd s = .err e s' → errIsHandler e := by
  intro e s' h
  simp only [runTask] at h
  split at h
  · exact absurd h (by simp)
  · split at h
    · cases h
      exact notifyContacted_err _ _ _ _ _ (by assumption)
    · exact absurd h (by simp)

theorem taskLoop_err (play : Play) :
    ∀ (tasks : List EngineTask) (s : EngineState) (e : Err) (s' : EngineState),
      taskLoop play tasks s = .err e s' → errIsHandler e := by
  intro tasks
  induction tasks with
  | nil =>
    intro s e s' h
    exact absurd h (by simp [taskLoop])
  | cons task rest ih =>
    intro s e s' h
    rw [taskLoop] at h
    split at h
    · rename_i heq
      cases heq2 : shouldRunTask s.onlyTags task with
      | true =>
        rw [if_pos heq2] at heq
        cases h
        exact runTask_err task false s _ _ heq
      | false =>
        rw [if_neg (by simp [heq2])] at heq
        exact absurd heq (by simp)
    · split at h
      · exact absurd h (by simp)
      · simp only [] at h
        split at h
        · exact absurd h (by simp)
        · exact ih _ e s' h

theorem runHandlerStep_err (i : Nat) (s : EngineState) :
    ∀ e s', runHandlerStep i s = .err e s' → errIsHandler e := by
  intro e s' h
  rw [runHandlerStep] at h
  split at h
  · exact absurd h (by simp)
  · split at h
    · exact absurd h (by simp)
    · split at h
      · cases h
        rename_i handler _ _ _ heq
        exact runTask_err handler.task true _ _ _ heq
      · exact absurd h (by simp)

theorem runHandlersFrom_err :
    ∀ (fuel i : Nat) (s : EngineState) (e : Err) (s' : EngineState),
      runHandlersFrom fuel i s = .err e s' → errIsHandler e := by
  intro fuel
  induction fuel with
  | zero =>
    intro i s e s' h
    exact absurd h (by simp [runHandlersFrom])
  | succ fuel ih =>
    intro i s e s' h
    rw [runHandlersFrom] at h
    split at h
    · split at h
      · cases h
        exact runHandlerStep_err i s _ _ (by assumption)
      · exact ih _ _ e s' h
    · exact absurd h (by simp)

theorem runBatches_err (play : Play) :
    ∀ (batches : List (List Host)) (s : EngineState) (e : Err) (s' : EngineState),
      runBatches play batches s = .err e s' → errIsHandler e := by
  intro batches
  induction batches with
  | nil =>
    intro s e s' h
    exact absurd h (by simp [runBatches])
  | cons onHosts rest ih =>
    intro s e s' h
    simp only [runBatches] at h
    split at h
    · cases h
      exact taskLoop_err play play.tasks _ _ _ (by assumption)
    · exact absurd h (by simp)
    · split at h
      · cases h
        exact runHandlersFrom_err _ _ _ _ _ (by assumption)
      · exact ih _ e s' h

theorem runPlay_err (play : Play) (s : EngineState) :
    ∀ e s', runPlay play s = .err e s' → errIsHandler e := by
  intro e s' h
  simp only [runPlay] at h
  split at h
  · exact absurd h (by simp)
  · exact runBatches_err play _ _ e s' h

theorem runPlays_err :
    ∀ (plays : List Play) (s : EngineState) (e : Err) (s' : EngineState),
      runPlays plays s = .err e s' → errIsHandler e := by
  intro plays
  induction plays with
  | nil =>
    intro s e s' h
    exact absurd h (by simp [runPlays])
  | cons p rest ih =>
    intro s e s' h
    rw [runPlays] at h
    split at h
    · cases h
      exact runPlay_err p s _ _ (by assumption)
    · exact ih _ e s' h
    · exact absurd h (by simp)

/-! ## Claim C6 — unknown-tag error -/

/-- **C6**: after tag-scanning every play and before any play is executed, a
non-empty set (requested tags minus all tags ever seen matched or unmatched minus
`all`) makes `run()` raise the tag error whose message carries the comma-joined
sorted unknown tags and the comma-joined sorted unmatched tags (with `all`
removed), in the state holding only the run-start callback; when that set is
empty, no tag error is ever raised. -/
theorem c6_unknown_tags (playbook : List Play) (s : EngineState) :
    (¬ unknownTagsOf playbook s.onlyTags = [] →
      runPB playbook s =
        .err (.tagError ("tag(s) not found in playbook: " ++
            joinSorted (unknownTagsOf playbook s.onlyTags) ++
            ".  possible values: " ++
            joinSorted ((unmatchedTagsAll playbook s.onlyTags).filter (fun t => t != "all"))))
          (emit s .onStart)) ∧
    (unknownTagsOf playbook s.onlyTags = [] →
      ∀ msg s', ¬ runPB playbook s = .err (.tagError msg) s') := by
  constructor
  · intro hne
    have hisempty : (unknownTagsOf playbook s.onlyTags).isEmpty = false := by
      cases hu : unknownTagsOf playbook s.onlyTags with
      | nil => exact absurd hu hne
      | cons a l => simp
    simp only [runPB, emit_onlyTags, hisempty, Bool.not_false, if_true]
    rfl
  · intro hunk msg s' hcon
    simp only [runPB, emit_onlyTags, hunk, List.isEmpty_nil, Bool.not_true,
      Bool.false_eq_true, if_false] at hcon
    split at hcon
    · rename_i e s2 heq
      cases hcon
      obtain ⟨n, hn⟩ := runPlays_err _ _ _ _ heq
      exact absurd hn (by intro hcon2; cases hcon2)
    · exact absurd hcon (by simp)

theorem c6_unknown_tags_witness :
    (¬ unknownTagsOf [sampleTagPlay] sampleTagState.onlyTags = [] ∧
      runPB [sampleTagPlay] sampleTagState =
        .err (.tagError ("tag(s) not found in playbook: " ++
            joinSorted (unknownTagsOf [sampleTagPlay] sampleTagState.onlyTags) ++
            ".  possible values: " ++
            joinSorted ((unmatchedTagsAll [sampleTagPlay] sampleTagState.onlyTags).filter
              (fun t => t != "all"))))
          (emit sampleTagState .onStart)) ∧
    (unknownTagsOf [] (sampleState []).onlyTags = [] ∧
      ¬ runPB [] (sampleState []) = .err (.tagError "x") (sampleState [])) := by
  refine ⟨⟨by decide, ?_⟩, ⟨rfl, ?_⟩⟩
  · exact (c6_unknown_tags [sampleTagPlay] sampleTagState).1 (by decide)
  · exact (c6_unknown_tags [] (sampleState [])).2 rfl "x" (sampleState [])

/-! ## Segment lemmas for the play loop -/

theorem leak_append_left {t1 t2 : List Event} (h1 : BalancedSeg t1)
    (h2 : LeakAlsoSeg t2) : LeakAlsoSeg (t1 ++ t2) := by
  intro r a
  rw [simFold_append, h1, h2]

theorem balanced_append_leak {t1 t2 : List Event} (h1 : LeakAlsoSeg t1)
    (h2 : BalancedSeg t2) : LeakAlsoSeg (t1 ++ t2) := by
  intro r a
  rw [simFold_append, h1, h2]

theorem doSetupRun_trace (hl : List Host) (s : EngineState) :
    (doSetupRun hl s).2.trace =
      s.trace ++ [.onSetup, .restrictTo hl, .setupExec hl, .liftRestriction] := by
  simp [doSetupRun, nextOutcome]

theorem doSetupRun_fields (hl : List Host) (s : EngineState) :
    (doSetupRun hl s).2.inventory = s.inventory ∧
    (doSetupRun hl s).2.handlers = s.handlers ∧
    (doSetupRun hl s).2.onlyTags = s.onlyTags ∧
    (doSetupRun hl s).2.extraVars = s.extraVars := by
  exact ⟨rfl, rfl, rfl, rfl⟩

/-- The setup step appends a balanced, availability-correct trace segment and
preserves the inventory, handler list and run configuration. -/
theorem doSetupStep_seg (play : Play) (s : EngineState) :
    ∃ tl, (doSetupStep play s).2.trace = s.trace ++ tl ∧
      BalancedSeg tl ∧ TraceOk tl ∧
      (doSetupStep play s).2.inventory = s.inventory ∧
      (doSetupStep play s).2.handlers = s.handlers ∧
      (doSetupStep play s).2.onlyTags = s.onlyTags ∧
      (doSetupStep play s).2.extraVars = s.extraVars := by
  have hrun : ∀ (hl : List Host),
      ∃ tl, (doSetupRun hl s).2.trace = s.trace ++ tl ∧
        BalancedSeg tl ∧ TraceOk tl ∧
        (doSetupRun hl s).2.inventory = s.inventory ∧
        (doSetupRun hl s).2.handlers = s.handlers ∧
        (doSetupRun hl s).2.onlyTags = s.onlyTags ∧
        (doSetupRun hl s).2.extraVars = s.extraVars := by
    intro hl
    obtain ⟨hfi, hfh, hfo, hfe⟩ := doSetupRun_fields hl s
    refine ⟨[.onSetup, .restrictTo hl, .setupExec hl, .liftRestriction],
      doSetupRun_trace hl s, ?_, ?_, hfi, hfh, hfo, hfe⟩
    · show BalancedSeg ([Event.onSetup] ++
        (Event.restrictTo hl :: ([Event.setupExec hl] ++ [Event.liftRestriction])))
      refine balanced_append (balanced_neutral ?_)
        (balanced_restrict_pair (balanced_neutral ?_) _)
      · intro e he
        rcases List.mem_cons.mp he with h1 | h0
        · subst h1; rfl
        · exact absurd h0 (List.not_mem_nil e)
      · intro e he
        rcases List.mem_cons.mp he with h1 | h0
        · subst h1; rfl
        · exact absurd h0 (List.not_mem_nil e)
    · intro e he
      rcases List.mem_cons.mp he with h1 | he2
      · subst h1; trivial
      · rcases List.mem_cons.mp he2 with h1 | he3
        · subst h1; trivial
        · rcases List.mem_cons.mp he3 with h1 | he4
          · subst h1; trivial
          · rcases List.mem_cons.mp he4 with h1 | h0
            · subst h1; trivial
            · exact absurd h0 (List.not_mem_nil e)
  rw [doSetupStep]
  match play.gatherFacts with
  | Option.some false =>
    exact ⟨[], by simp, balanced_nil, by intro e he; exact absurd he (List.not_mem_nil e),
      rfl, rfl, rfl, rfl⟩
  | Option.some true => exact hrun _
  | Option.none =>
    by_cases hfe : ((listAvailableHosts s.inventory s.stats
        (Option.some play.hosts)).filter (fun h => needsSetup s.setupCache h)).isEmpty = true
    · rw [if_pos hfe]
      exact ⟨[], by simp, balanced_nil, by intro e he; exact absurd he (List.not_mem_nil e),
        rfl, rfl, rfl, rfl⟩
    · rw [if_neg hfe]
      exact hrun _

/-- The task loop appends a balanced, availability-correct segment on every path. -/
theorem taskLoop_seg (play : Play) :
    ∀ (tasks : List EngineTask) (s : EngineState),
      ∃ tl, ((taskLoop play tasks s).state).trace = s.trace ++ tl ∧
        BalancedSeg tl ∧ TraceOk tl := by
  intro tasks
  induction tasks with
  | nil =>
    intro s
    exact ⟨[], by simp [taskLoop, ERes.state], balanced_nil,
      by intro e he; exact absurd he (List.not_mem_nil e)⟩
  | cons task rest ih =>
    intro s
    rw [taskLoop]
    have hcase : ∀ (r : ERes Bool),
        (if shouldRunTask s.onlyTags task then runTask task false s
          else .ok true s) = r →
        (∃ tlr, r.state.trace = s.trace ++ tlr ∧ BalancedSeg tlr ∧ TraceOk tlr) := by
      intro r hr
      by_cases hsr : shouldRunTask s.onlyTags task = true
      · rw [if_pos hsr] at hr
        obtain ⟨tlr, htlr, _, _, hbal, hok, _, _, _, _⟩ := runTask_seg task false s
        rw [hr] at htlr
        exact ⟨tlr, htlr, hbal, hok⟩
      · rw [if_neg hsr] at hr
        subst hr
        exact ⟨[], by simp [ERes.state], balanced_nil,
          by intro e he; exact absurd he (List.not_mem_nil e)⟩
    match hr : (if shouldRunTask s.onlyTags task then runTask task false s
        else .ok true s) with
    | .err e s2 =>
      obtain ⟨tlr, htlr, hbal, hok⟩ := hcase _ hr
      exact ⟨tlr, htlr, hbal, hok⟩
    | .ok b s2 =>
      obtain ⟨tlr, htlr, hbal, hok⟩ := hcase _ hr
      simp only [ERes.state] at htlr
      cases b with
      | false => exact ⟨tlr, htlr, hbal, hok⟩
      | true =>
        show ∃ tl, ((if (listAvailableHosts s2.inventory s2.stats
              (Option.some play.hosts)).isEmpty = true
            then ERes.ok false (emit s2 Event.onNoHostsRemaining)
            else taskLoop play rest s2)).state.trace = s.trace ++ tl ∧
          BalancedSeg tl ∧ TraceOk tl
        by_cases hempty : (listAvailableHosts s2.inventory s2.stats
            (Option.some play.hosts)).isEmpty = true
        · rw [if_pos hempty]
          refine ⟨tlr ++ [Event.onNoHostsRemaining], ?_, ?_, ?_⟩
          · show (emit s2 Event.onNoHostsRemaining).trace = _
            rw [emit_trace, htlr, List.append_assoc]
          · refine balanced_append hbal (balanced_neutral ?_)
            intro e he
            rcases List.mem_cons.mp he with h1 | h0
            · subst h1; rfl
            · exact absurd h0 (List.not_mem_nil e)
          · refine traceOk_append hok ?_
            intro e he
            rcases List.mem_cons.mp he with h1 | h0
            · subst h1; trivial
            · exact absurd h0 (List.not_mem_nil e)
        · rw [if_neg hempty]
          obtain ⟨tl2, htl2, hbal2, hok2⟩ := ih s2
          refine ⟨tlr ++ tl2, ?_, balanced_append hbal hbal2, traceOk_append hok hok2⟩
          rw [htl2, htlr, List.append_assoc]

/-- One handler step appends an availability-correct segment, balanced whenever the
step succeeds. -/
theorem runHandlerStep_seg (i : Nat) (s : EngineState) :
    ∃ tl, ((runHandlerStep i s).state).trace = s.trace ++ tl ∧
      TraceOk tl ∧
      (∀ u s'', runHandlerStep i s = .ok u s'' → BalancedSeg tl) := by
  match hget : s.handlers[i]? with
  | Option.none =>
    have heq : runHandlerStep i s = .ok () s := by
      simp only [runHandlerStep, hget]
    rw [heq]
    exact ⟨[], by simp [ERes.state], by intro e he; exact absurd he (List.not_mem_nil e),
      fun u s'' _ => balanced_nil⟩
  | Option.some handler =>
    by_cases hne : handler.notifiedBy.isEmpty = true
    · have heq : runHandlerStep i s = .ok () s := by
        simp only [runHandlerStep, hget]
        rw [if_pos hne]
      rw [heq]
      exact ⟨[], by simp [ERes.state], by intro e he; exact absurd he (List.not_mem_nil e),
        fun u s'' _ => balanced_nil⟩
    · obtain ⟨tlr, htlr, _, _, hbal, hok, _, _, _, _⟩ :=
        runTask_seg handler.task true (restrictToS handler.notifiedBy s)
      match hrt : runTask handler.task true (restrictToS handler.notifiedBy s) with
      | .err e s₁ =>
        have heq : runHandlerStep i s = .err e s₁ := by
          simp only [runHandlerStep, hget, hrt]
          rw [if_neg hne]
        rw [hrt] at htlr
        simp only [ERes.state] at htlr
        refine ⟨Event.restrictTo handler.notifiedBy :: tlr, ?_, ?_, ?_⟩
        · rw [heq]
          show s₁.trace = _
          rw [htlr, restrictToS_trace]
          simp
        · intro e he
          rcases List.mem_cons.mp he with h1 | h2
          · subst h1; trivial
          · exact hok e h2
        · intro u s'' hcon
          rw [heq] at hcon
          exact absurd hcon (by simp)
      | .ok b s₁ =>
        have hst : (runHandlerStep i s).state.trace = (liftRestrictionS s₁).trace := by
          simp only [runHandlerStep, hget, hrt]
          rw [if_neg hne]
          rfl
        rw [hrt] at htlr
        simp only [ERes.state] at htlr
        refine ⟨Event.restrictTo handler.notifiedBy :: (tlr ++ [Event.liftRestriction]),
          ?_, ?_, ?_⟩
        · rw [hst, liftRestrictionS_trace, htlr, restrictToS_trace]
          simp
        · intro e he
          rcases List.mem_cons.mp he with h1 | h2
          · subst h1; trivial
          · rcases List.mem_append.mp h2 with h3 | h4
            · exact hok e h3
            · rcases List.mem_cons.mp h4 with h1 | h0
              · subst h1; trivial
              · exact absurd h0 (List.not_mem_nil e)
        · intro u s'' _
          exact balanced_restrict_pair hbal _

/-- The handler loop appends an availability-correct segment, balanced whenever it
succeeds. -/
theorem runHandlersFrom_seg :
    ∀ (fuel i : Nat) (s : EngineState),
      ∃ tl, ((runHandlersFrom fuel i s).state).trace = s.trace ++ tl ∧
        TraceOk tl ∧
        (∀ u s'', runHandlersFrom fuel i s = .ok u s'' → BalancedSeg tl) := by
  intro fuel
  induction fuel with
  | zero =>
    intro i s
    exact ⟨[], by simp [runHandlersFrom, ERes.state],
      by intro e he; exact absurd he (List.not_mem_nil e),
      fun u s'' _ => balanced_nil⟩
  | succ fuel ih =>
    intro i s
    rw [runHandlersFrom]
    by_cases hlt : i < s.handlers.length
    · rw [if_pos hlt]
      obtain ⟨tls, htls, hoks, hbals⟩ := runHandlerStep_seg i s
      match hstep : runHandlerStep i s with
      | .err e s2 =>
        rw [hstep] at htls
        simp only [ERes.state] at htls
        exact ⟨tls, htls, hoks, fun u s'' hcon => absurd hcon (by simp)⟩
      | .ok _ s2 =>
        rw [hstep] at htls
        simp only [ERes.state] at htls
        obtain ⟨tl2, htl2, hok2, hbal2⟩ := ih (i + 1) s2
        refine ⟨tls ++ tl2, ?_, traceOk_append hoks hok2, ?_⟩
        · rw [htl2, htls, List.append_assoc]
        · intro u s'' hres
          exact balanced_append (hbals _ _ hstep) (hbal2 u s'' hres)
    · rw [if_neg hlt]
      exact ⟨[], by simp [ERes.state], by intro e he; exact absurd he (List.not_mem_nil e),
        fun u s'' _ => balanced_nil⟩

/-- The batch loop appends an availability-correct segment; the segment is
balanced when the loop completes and leaks exactly one also-restriction frame when
a task aborts the play mid-batch. -/
theorem runBatches_seg (play : Play) :
    ∀ (batches : List (List Host)) (s : EngineState),
      ∃ tl, ((runBatches play batches s).state).trace = s.trace ++ tl ∧
        TraceOk tl ∧
        (∀ s'', runBatches play batches s = .ok true s'' → BalancedSeg tl) ∧
        (∀ s'', runBatches play batches s = .ok false s'' → LeakAlsoSeg tl) := by
  intro batches
  induction batches with
  | nil =>
    intro s
    refine ⟨[], by simp [runBatches, ERes.state],
      by intro e he; exact absurd he (List.not_mem_nil e), fun _ _ => balanced_nil, ?_⟩
    intro s'' hcon
    rw [runBatches] at hcon
    simp at hcon
  | cons onHosts rest ih =>
    intro s
    rw [runBatches]
    obtain ⟨tlt, htlt, hbalt, hokt⟩ := taskLoop_seg play play.tasks (alsoRestrictToS onHosts s)
    match ht : taskLoop play play.tasks (alsoRestrictToS onHosts s) with
    | .err e s2 =>
      rw [ht] at htlt
      simp only [ERes.state] at htlt
      refine ⟨Event.alsoRestrictTo onHosts :: tlt, ?_, ?_, ?_, ?_⟩
      · show s2.trace = _
        rw [htlt, alsoRestrictToS_trace]
        simp
      · intro e' he'
        rcases List.mem_cons.mp he' with h1 | h2
        · subst h1; trivial
        · exact hokt e' h2
      · intro s'' hcon
        exact absurd hcon (by simp)
      · intro s'' hcon
        exact absurd hcon (by simp)
    | .ok false s2 =>
      rw [ht] at htlt
      simp only [ERes.state] at htlt
      refine ⟨Event.alsoRestrictTo onHosts :: tlt, ?_, ?_, ?_, ?_⟩
      · show s2.trace = _
        rw [htlt, alsoRestrictToS_trace]
        simp
      · intro e' he'
        rcases List.mem_cons.mp he' with h1 | h2
        · subst h1; trivial
        · exact hokt e' h2
      · intro s'' hcon
        exact absurd hcon (by simp)
      · intro s'' _
        exact leak_also hbalt onHosts
    | .ok true s2 =>
      rw [ht] at htlt
      simp only [ERes.state] at htlt
      obtain ⟨tlh, htlh, hokh, hbalh⟩ := runHandlersFrom_seg s2.handlers.length 0 s2
      match hh : runHandlersFrom s2.handlers.length 0 s2 with
      | .err e s3 =>
        rw [hh] at htlh
        simp only [ERes.state] at htlh
        simp only [hh]
        refine ⟨Event.alsoRestrictTo onHosts :: (tlt ++ tlh), ?_, ?_, ?_, ?_⟩
        · show s3.trace = _
          rw [htlh, htlt, alsoRestrictToS_trace]
          simp
        · intro e' he'
          rcases List.mem_cons.mp he' with h1 | h2
          · subst h1; trivial
          · rcases List.mem_append.mp h2 with h3 | h4
            · exact hokt e' h3
            · exact hokh e' h4
        · intro s'' hcon
          exact absurd hcon (by simp)
        · intro s'' hcon
          exact absurd hcon (by simp)
      | .ok u s3 =>
        rw [hh] at htlh
        simp only [ERes.state] at htlh
        simp only [hh]
        obtain ⟨tlr, htlr, hokr, hbalr, hleakr⟩ := ih (liftAlsoRestrictionS s3)
        refine ⟨(Event.alsoRestrictTo onHosts ::
            ((tlt ++ tlh) ++ [Event.liftAlsoRestriction])) ++ tlr, ?_, ?_, ?_, ?_⟩
        · rw [htlr, liftAlsoRestrictionS_trace, htlh, htlt, alsoRestrictToS_trace]
          simp
        · intro e' he'
          rcases List.mem_append.mp he' with h2 | h3
          · rcases List.mem_cons.mp h2 with h1 | h4
            · subst h1; trivial
            · rcases List.mem_append.mp h4 with h5 | h6
              · rcases List.mem_append.mp h5 with h7 | h8
                · exact hokt e' h7
                · exact hokh e' h8
              · rcases List.mem_cons.mp h6 with h1 | h0
                · subst h1; trivial
                · exact absurd h0 (List.not_mem_nil e')
          · exact hokr e' h3
        · intro s'' hres
          exact balanced_append
            (balanced_also_pair (balanced_append hbalt (hbalh u s3 hh)) onHosts)
            (hbalr s'' hres)
        · intro s'' hres
          exact leak_append_left
            (balanced_also_pair (balanced_append hbalt (hbalh u s3 hh)) onHosts)
            (hleakr s'' hres)

/-- The play appends an availability-correct segment: balanced when the play
returns success, leaking exactly one also-restriction frame when it aborts. -/
theorem runPlay_seg (play : Play) (s : EngineState) :
    ∃ tl, ((runPlay play s).state).trace = s.trace ++ tl ∧
      TraceOk tl ∧
      (∀ s'', runPlay play s = .ok true s'' → BalancedSeg tl) ∧
      (∀ s'', runPlay play s = .ok false s'' → LeakAlsoSeg tl) := by
  by_cases hm : ((s.inventory.listHosts (Option.some play.hosts)).isEmpty) = true
  · have heq : runPlay play s =
        .ok true (emit { emit s (.onPlayStart play.name) with handlers := play.handlers }
          .onNoHostsMatched) := by
      simp only [runPlay, emit_inventory]
      rw [if_pos hm]
    rw [heq]
    refine ⟨[Event.onPlayStart play.name, Event.onNoHostsMatched], ?_, ?_, ?_, ?_⟩
    · show ((emit { emit s (.onPlayStart play.name) with handlers := play.handlers }
        .onNoHostsMatched)).trace = _
      rw [emit_trace]
      show (emit s (.onPlayStart play.name)).trace ++ _ = _
      rw [emit_trace]
      simp
    · intro e' he'
      rcases List.mem_cons.mp he' with h1 | h2
      · subst h1; trivial
      · rcases List.mem_cons.mp h2 with h1 | h0
        · subst h1; trivial
        · exact absurd h0 (List.not_mem_nil e')
    · intro s'' _
      refine balanced_neutral ?_
      intro e' he'
      rcases List.mem_cons.mp he' with h1 | h2
      · subst h1; rfl
      · rcases List.mem_cons.mp h2 with h1 | h0
        · subst h1; rfl
        · exact absurd h0 (List.not_mem_nil e')
    · intro s'' hcon
      exact absurd hcon (by simp)
  · have heq : runPlay play s =
        runBatches play
          (serializeBatch play.serial
            (listAvailableHosts
              (doSetupStep play
                { emit s (.onPlayStart play.name) with handlers := play.handlers }).2.inventory
              (doSetupStep play
                { emit s (.onPlayStart play.name) with handlers := play.handlers }).2.stats
              (Option.some play.hosts)))
          (doSetupStep play
            { emit s (.onPlayStart play.name) with handlers := play.handlers }).2 := by
      simp only [runPlay, emit_inventory]
      rw [if_neg hm]
    obtain ⟨tls, htls, hbals, hoks, hsi, hsh, hso, hsx⟩ :=
      doSetupStep_seg play { emit s (.onPlayStart play.name) with handlers := play.handlers }
    obtain ⟨tlb, htlb, hokb, hbalb, hleakb⟩ :=
      runBatches_seg play
        (serializeBatch play.serial
          (listAvailableHosts
            (doSetupStep play
              { emit s (.onPlayStart play.name) with handlers := play.handlers }).2.inventory
            (doSetupStep play
              { emit s (.onPlayStart play.name) with handlers := play.handlers }).2.stats
            (Option.some play.hosts)))
        (doSetupStep play
          { emit s (.onPlayStart play.name) with handlers := play.handlers }).2
    refine ⟨Event.onPlayStart play.name :: (tls ++ tlb), ?_, ?_, ?_, ?_⟩
    · rw [heq, htlb, htls]
      show ((emit s (.onPlayStart play.name)).trace) ++ _ ++ _ = _
      rw [emit_trace]
      simp
    · intro e' he'
      rcases List.mem_cons.mp he' with h1 | h2
      · subst h1; trivial
      · rcases List.mem_append.mp h2 with h3 | h4
        · exact hoks e' h3
        · exact hokb e' h4
    · intro s'' hres
      rw [heq] at hres
      show BalancedSeg ([Event.onPlayStart play.name] ++ (tls ++ tlb))
      refine balanced_append (balanced_neutral ?_)
        (balanced_append hbals (hbalb s'' hres))
      intro e' he'
      rcases List.mem_cons.mp he' with h1 | h0
      · subst h1; rfl
      · exact absurd h0 (List.not_mem_nil e')
    · intro s'' hres
      rw [heq] at hres
      show LeakAlsoSeg (([Event.onPlayStart play.name] ++ tls) ++ tlb)
      refine leak_append_left ?_ (hleakb s'' hres)
      refine balanced_append (balanced_neutral ?_) hbals
      intro e' he'
      rcases List.mem_cons.mp he' with h1 | h0
      · subst h1; rfl
      · exact absurd h0 (List.not_mem_nil e')

/-- The play loop appends an availability-correct trace segment. -/
theorem runPlays_trace : ∀ (plays : List Play) (s : EngineState),
    ∃ tl, ((runPlays plays s).state).trace = s.trace ++ tl ∧ TraceOk tl := by
  intro plays
  induction plays with
  | nil =>
    intro s
    exact ⟨[], by simp [runPlays, ERes.state],
      by intro e he; exact absurd he (List.not_mem_nil e)⟩
  | cons p rest ih =>
    intro s
    rw [runPlays]
    obtain ⟨tlp, htlp, hokp, _, _⟩ := runPlay_seg p s
    match hp : runPlay p s with
    | .err e s2 =>
      rw [hp] at htlp
      simp only [ERes.state] at htlp
      simp only [hp]
      exact ⟨tlp, htlp, hokp⟩
    | .ok false s2 =>
      rw [hp] at htlp
      simp only [ERes.state] at htlp
      simp only [hp]
      exact ⟨tlp, htlp, hokp⟩
    | .ok true s2 =>
      rw [hp] at htlp
      simp only [ERes.state] at htlp
      simp only [hp]
      obtain ⟨tlr, htlr, hokr⟩ := ih s2
      refine ⟨tlp ++ tlr, ?_, ?_⟩
      · rw [htlr, htlp]
        simp
      · intro e he
        rcases List.mem_append.mp he with h1 | h2
        · exact hokp e h1
        · exact hokr e h2

/-- The whole playbook run appends an availability-correct trace segment. -/
theorem runPB_trace (playbook : List Play) (s : EngineState) :
    ∃ tl, ((runPB playbook s).state).trace = s.trace ++ tl ∧ TraceOk tl := by
  by_cases hne : unknownTagsOf playbook s.onlyTags = []
  · simp only [runPB, emit_onlyTags, hne, List.isEmpty_nil, Bool.not_true,
      Bool.false_eq_true, if_false]
    obtain ⟨tlp, htlp, hokp⟩ :=
      runPlays_trace (selectedPlays playbook s.onlyTags) (emit s .onStart)
    match hp : runPlays (selectedPlays playbook s.onlyTags) (emit s .onStart) with
    | .err e s2 =>
      rw [hp] at htlp
      simp only [ERes.state] at htlp
      simp only [hp]
      refine ⟨Event.onStart :: tlp, ?_, ?_⟩
      · show s2.trace = _
        rw [htlp, emit_trace]
        simp
      · intro e' he'
        rcases List.mem_cons.mp he' with h1 | h2
        · subst h1; trivial
        · exact hokp e' h2
    | .ok u s2 =>
      rw [hp] at htlp
      simp only [ERes.state] at htlp
      simp only [hp]
      refine ⟨Event.onStart :: tlp, ?_, ?_⟩
      · show s2.trace = _
        rw [htlp, emit_trace]
        simp
      · intro e' he'
        rcases List.mem_cons.mp he' with h1 | h2
        · subst h1; trivial
        · exact hokp e' h2
  · have hisempty : (unknownTagsOf playbook s.onlyTags).isEmpty = false := by
      cases hu : unknownTagsOf playbook s.onlyTags with
      | nil => exact absurd hu hne
      | cons a l => simp
    simp only [runPB, emit_onlyTags, hisempty, Bool.not_false, if_true, ERes.state]
    refine ⟨[Event.onStart], by rw [emit_trace], ?_⟩
    intro e' he'
    rcases List.mem_cons.mp he' with h1 | h0
    · subst h1; trivial
    · exact absurd h0 (List.not_mem_nil e')

/-- C7 (amended): every individual task or handler dispatch pushes and pops its
`restrict_to` frame in a matched LIFO pair, and a play that runs to completion
leaves the restriction stacks exactly as it found them; but a play aborted by a
task failing all hosts mid-batch exits early without popping the batch's
`also_restrict_to` frame, leaking exactly one also-restriction frame. -/
theorem c7_restriction_balance :
    (∀ (task : EngineTask) (ihd : Bool) (s : EngineState),
      ∃ tl, ((runTask task ihd s).state).trace = s.trace ++ tl ∧ BalancedSeg tl) ∧
    (∀ (play : Play) (s s' : EngineState),
      runPlay play s = .ok true s' →
      ∃ tl, s'.trace = s.trace ++ tl ∧ BalancedSeg tl) ∧
    (∀ (play : Play) (s s' : EngineState),
      runPlay play s = .ok false s' →
      ∃ tl, s'.trace = s.trace ++ tl ∧ LeakAlsoSeg tl) := by
  refine ⟨?_, ?_, ?_⟩
  · intro task ihd s
    obtain ⟨tl, htl, _, _, hbal, _⟩ := runTask_seg task ihd s
    exact ⟨tl, htl, hbal⟩
  · intro play s s' hres
    obtain ⟨tl, htl, _, hbal, _⟩ := runPlay_seg play s
    rw [hres] at htl
    simp only [ERes.state] at htl
    exact ⟨tl, htl, hbal s' hres⟩
  · intro play s s' hres
    obtain ⟨tl, htl, _, _, hleak⟩ := runPlay_seg play s
    rw [hres] at htl
    simp only [ERes.state] at htl
    exact ⟨tl, htl, hleak s' hres⟩

theorem c7_restriction_balance_witness :
    ∃ tl, ((runTask sampleTask false (sampleState [sampleOkOutcome])).state).trace =
      (sampleState [sampleOkOutcome]).trace ++ tl ∧ BalancedSeg tl :=
  c7_restriction_balance.1 sampleTask false (sampleState [sampleOkOutcome])

/-- A play aborted mid-batch (here: its only task fails on every host) returns
`false` with the batch's also-restriction frame still on the stack: replaying the
trace from empty stacks ends at also-depth 1, not 0, refuting the original claim
that no restriction frame outlives the play invocation that pushed it. -/
theorem c7_leak_counterexample :
    runPlay sampleFailPlay (sampleState [sampleFailOutcome]) =
      .ok false ((runPlay sampleFailPlay (sampleState [sampleFailOutcome])).state) ∧
    simFold ((runPlay sampleFailPlay (sampleState [sampleFailOutcome])).state).trace
      (Option.some (0, 0)) = Option.some (0, 1) := by
  exact ⟨rfl, rfl⟩

/-- C1: every executor dispatch in the whole playbook run — tasks and handlers
alike — restricts the inventory to the host list recomputed at that moment from
the current inventory and stats, so no host recorded as failed or unreachable at
that point is included in any subsequent dispatch. -/
theorem c1_availability_recomputed (playbook : List Play) (s : EngineState)
    (h : TraceOk s.trace) :
    TraceOk (((runPB playbook s).state).trace) ∧
    (∀ hs inv st, Event.execCall hs inv st ∈ ((runPB playbook s).state).trace →
      hs = listAvailableHosts inv st Option.none ∧
      ∀ h' ∈ hs, counterHas st.failures h' = false ∧ counterHas st.dark h' = false) := by
  obtain ⟨tl, htl, hok⟩ := runPB_trace playbook s
  have main : TraceOk (((runPB playbook s).state).trace) := by
    rw [htl]
    exact traceOk_append h hok
  refine ⟨main, ?_⟩
  intro hs inv st hmem
  exact main (Event.execCall hs inv st) hmem

theorem c1_availability_recomputed_witness :
    TraceOk (((runPB [sampleFailPlay] (sampleState [sampleFailOutcome])).state).trace) :=
  (c1_availability_recomputed [sampleFailPlay] (sampleState [sampleFailOutcome])
    (by intro e he; exact absurd he (List.not_mem_nil e))).1

theorem c10_register_fold_witness :
    sampleRegisterTask.register = Option.some "myvar" ∧
    (sampleContacted.map Prod.fst).Nodup ∧
    ("a", sampleStdoutResult) ∈ sampleContacted ∧
    ((¬ (dictGetD sampleStdoutResult "skipped" (.bool false)).truthy = true →
      ∃ entry,
        hdictGet (foldContacted sampleRegisterTask sampleExtraVars [] sampleContacted) "a" =
          Option.some entry ∧
        dictGet entry "myvar" = Option.some (.dict (registeredResult sampleStdoutResult))) ∧
    ((dictGetD sampleStdoutResult "skipped" (.bool false)).truthy = true →
      hdictGet (foldContacted sampleRegisterTask sampleExtraVars [] sampleContacted) "a" =
        hdictGet [] "a")) :=
  ⟨rfl, by decide,
    by unfold sampleContacted; exact List.mem_cons_self _ _,
    c10_register_fold sampleRegisterTask "myvar" rfl sampleExtraVars sampleContacted []
      "a" sampleStdoutResult (by decide)
      (by unfold sampleContacted; exact List.mem_cons_self _ _)⟩

end Ansible
